import Mathlib

/-!
Verification of the brutal ECS core (`brutal_ecs.h`) and the MPMC thread
pool (`mpmc_tpool.h`) against their natural-language specification.

The C code is shallowly embedded: arrays become `List`s (a sparse array is
the whole zero-initialised capacity region, so `List.getD _ _ 0` is exactly
the C read including the capacity bound), component bitsets become
`Finset ℕ`, machine integers that stay small become `Nat`/`Int`, and the
byte payload of one component element is a `List Nat`.  Reads the C code
would perform out of bounds are modelled with `Option` (`none` = undefined
behaviour).
-/

namespace Brutal

/-- Payload bytes of one component element (`elem_size` bytes). -/
abbrev EcsBytes := List Nat

/- ------------------------------- Sparse Set ------------------------------- -/

/-- `ecs_sparse_set`.  `sparse` is the whole allocated (zero-filled)
capacity region, so `sparse.length` is `sparse_cap`; an entry is the dense
index + 1, 0 meaning absent.  `dense` holds exactly the `count` live
entries (the C array's capacity slack past `count` is never read, so it is
not modelled); `count` is `dense.length`. -/
structure ecs_sparse_set where
  sparse : List Nat
  dense : List Nat
  deriving Repr, DecidableEq

/-- `ecs_ss_has`: `(entity < sparse_cap) && (sparse[entity] != 0)`;
`getD _ _ 0` returns 0 exactly when `entity` is past the capacity. -/
def ecs_ss_has (set : ecs_sparse_set) (entity : Nat) : Bool :=
  set.sparse.getD entity 0 != 0

/-- The capacity-doubling loop of `ecs_ss_reserve_sparse`
(`while (cap < need) cap <<= 1`).  The iteration count is bounded by
`need`, which suffices whenever `cap ≥ 1` (the caller guarantees this). -/
def ecs_cap_grow_go : Nat → Nat → Nat → Nat
  | 0, cap, _ => cap
  | fuel + 1, cap, need =>
      if cap < need then ecs_cap_grow_go fuel (2 * cap) need else cap

def ecs_cap_grow (cap need : Nat) : Nat := ecs_cap_grow_go need cap need

/-- `ecs_ss_reserve_sparse`: grow the sparse region to a doubled capacity
at least `need`, zero-filling the new cells. -/
def ecs_ss_reserve_sparse (set : ecs_sparse_set) (need : Nat) : ecs_sparse_set :=
  if need ≤ set.sparse.length then set
  else
    let old := set.sparse.length
    let cap := ecs_cap_grow (if old = 0 then 1 else old) need
    { set with sparse := set.sparse ++ List.replicate (cap - old) 0 }

/-- `ecs_ss_insert`.  Returns the set and the C `int` result
(1 = inserted, 0 = already present). -/
def ecs_ss_insert (set : ecs_sparse_set) (entity : Nat) : ecs_sparse_set × Nat :=
  let set := ecs_ss_reserve_sparse set (entity + 1)
  if set.sparse.getD entity 0 != 0 then (set, 0)
  else
    let idx := set.dense.length
    ({ sparse := set.sparse.set entity (idx + 1), dense := set.dense ++ [entity] }, 1)

/-- `ecs_ss_remove`: swap-with-last in `dense`, clear `sparse[entity]`,
repair `sparse[last_id]` when the removed slot was not the last. -/
def ecs_ss_remove (set : ecs_sparse_set) (entity : Nat) : ecs_sparse_set × Nat :=
  if set.sparse.length ≤ entity then (set, 0)
  else
    let idx0 := set.sparse.getD entity 0
    if idx0 = 0 then (set, 0)
    else
      let idx := idx0 - 1
      let last := set.dense.length - 1
      let last_id := set.dense.getD last 0
      let dense2 := (set.dense.set idx last_id).dropLast
      let sparse2 := set.sparse.set entity 0
      let sparse3 := if idx != last then sparse2.set last_id (idx + 1) else sparse2
      ({ sparse := sparse3, dense := dense2 }, 1)

/- ----------------------------- Component Pool ----------------------------- -/

/-- `ecs_pool`: sparse set plus the payload blob; `data` holds one
`EcsBytes` per dense slot (`data[i]` belongs to `dense[i]`; the C blob's
capacity slack past `count` is never read and is not modelled). -/
structure ecs_pool where
  set : ecs_sparse_set
  data : List EcsBytes
  element_size : Nat
  deriving Repr, DecidableEq

/-- `ecs_pool_init`. -/
def ecs_pool_init (element_size : Nat) : ecs_pool :=
  { set := { sparse := [], dense := [] }, data := [], element_size := element_size }

/-- `ecs_pool_add`: when absent, insert and zero-initialise a fresh dense
slot (the C `memset(dst, 0, elem_size)`); when present, return the existing
payload untouched.  The second component is the payload the returned
pointer refers to. -/
def ecs_pool_add (pool : ecs_pool) (e : Nat) : ecs_pool × EcsBytes :=
  if !(ecs_ss_has pool.set e) then
    let set2 := (ecs_ss_insert pool.set e).1
    let dst : EcsBytes := List.replicate pool.element_size 0
    ({ pool with set := set2, data := pool.data ++ [dst] }, dst)
  else
    (pool, pool.data.getD (pool.set.sparse.getD e 0 - 1) [])

/-- `ecs_pool_remove`: copy the last payload over the vacated slot
(`memcpy` when `idx != last`), then remove from the sparse set. -/
def ecs_pool_remove (pool : ecs_pool) (e : Nat) : ecs_pool × Nat :=
  if !(ecs_ss_has pool.set e) then (pool, 0)
  else
    let idx := pool.set.sparse.getD e 0 - 1
    let last := pool.set.dense.length - 1
    let data2 := if idx != last then pool.data.set idx (pool.data.getD last []) else pool.data
    let sr := ecs_ss_remove pool.set e
    ({ pool with set := sr.1, data := data2.dropLast }, sr.2)

/-- `ecs_pool_get`: `none` models the C NULL. -/
def ecs_pool_get (pool : ecs_pool) (e : Nat) : Option EcsBytes :=
  if !(ecs_ss_has pool.set e) then none
  else some (pool.data.getD (pool.set.sparse.getD e 0 - 1) [])

/-- Storing `v` through the pointer `ecs_pool_add`/`ecs_pool_get` returned
(the `memcpy(dst, ..., elem_size)` of `ecs_sync`'s `ECS_CMD_ADD` case). -/
def ecs_pool_write (pool : ecs_pool) (e : Nat) (v : EcsBytes) : ecs_pool :=
  if !(ecs_ss_has pool.set e) then pool
  else { pool with data := pool.data.set (pool.set.sparse.getD e 0 - 1) v }

/- ------------------- C-int entity wrappers (for the bounds claim) -------- -/

/-- `ecs_ss_has` on a C `int` entity.  The C test `entity < sparse_cap` is
a signed comparison, so a negative entity falls through to the read
`sparse[entity]`, which is out of bounds: that read is modelled as `none`. -/
def ecs_ss_has_int (set : ecs_sparse_set) (entity : Int) : Option Bool :=
  if entity < (set.sparse.length : Int) then
    if 0 ≤ entity then some (ecs_ss_has set entity.toNat) else none
  else some false

/-- `ecs_pool_get` on a C `int` entity (`none` = out-of-bounds read,
`some none` = the C NULL return). -/
def ecs_pool_get_int (pool : ecs_pool) (entity : Int) : Option (Option EcsBytes) :=
  if entity < (pool.set.sparse.length : Int) then
    if 0 ≤ entity then some (ecs_pool_get pool entity.toNat) else none
  else some none

/-- `ecs_ss_remove` on a C `int` entity.  The guard
`entity >= (ecs_entity)sparse_cap` is signed, so only the high side returns
early; a negative entity reaches the out-of-bounds read `sparse[entity]`. -/
def ecs_ss_remove_int (set : ecs_sparse_set) (entity : Int) :
    Option (ecs_sparse_set × Nat) :=
  if (set.sparse.length : Int) ≤ entity then some (set, 0)
  else if 0 ≤ entity then some (ecs_ss_remove set entity.toNat) else none

/-- `ecs_pool_remove` on a C `int` entity. -/
def ecs_pool_remove_int (pool : ecs_pool) (entity : Int) :
    Option (ecs_pool × Nat) :=
  if entity < (pool.set.sparse.length : Int) then
    if 0 ≤ entity then some (ecs_pool_remove pool entity.toNat) else none
  else some (pool, 0)

/- ------------------------- List.getD helper lemmas ------------------------ -/

theorem getD_set_self {α : Type} (l : List α) (i : Nat) (a d : α) (h : i < l.length) :
    (l.set i a).getD i d = a := by
  simp [List.getD_eq_getElem?_getD, List.getElem?_set, h]

theorem getD_set_ne {α : Type} (l : List α) (i j : Nat) (a d : α) (h : i ≠ j) :
    (l.set i a).getD j d = l.getD j d := by
  simp [List.getD_eq_getElem?_getD, List.getElem?_set, h]

theorem getD_dropLast {α : Type} (l : List α) (i : Nat) (d : α) (h : i < l.length - 1) :
    l.dropLast.getD i d = l.getD i d := by
  rw [List.getD_eq_getElem?_getD, List.getD_eq_getElem?_getD, List.dropLast_eq_take,
    List.getElem?_take, if_pos h]

theorem getD_append_left {α : Type} (l m : List α) (i : Nat) (d : α) (h : i < l.length) :
    (l ++ m).getD i d = l.getD i d := by
  simp [List.getD_eq_getElem?_getD, List.getElem?_append, h]

theorem getD_append_right {α : Type} (l m : List α) (i : Nat) (d : α) (h : l.length ≤ i) :
    (l ++ m).getD i d = m.getD (i - l.length) d := by
  have h2 : ¬ i < l.length := by omega
  simp [List.getD_eq_getElem?_getD, List.getElem?_append, h2]

theorem getD_replicate {α : Type} (n i : Nat) (a d : α) :
    (List.replicate n a).getD i d = if i < n then a else d := by
  by_cases h : i < n <;> simp [List.getD_eq_getElem?_getD, List.getElem?_replicate, h]

theorem getD_of_length_le {α : Type} (l : List α) (i : Nat) (d : α) (h : l.length ≤ i) :
    l.getD i d = d := by
  simp [List.getD_eq_getElem?_getD, List.getElem?_eq_none_iff.2 h]

/- --------------------- Sparse-set well-formedness -------------------------- -/

/-- Well-formedness of a sparse set: dense entries point back into sparse,
and every non-zero sparse entry points to a dense slot holding the entity.
The second conjunct is the spec's `dense[sparse[e]-1] == e`. -/
def ecs_ss_wf (s : ecs_sparse_set) : Prop :=
  (∀ i, i < s.dense.length → s.sparse.getD (s.dense.getD i 0) 0 = i + 1) ∧
  (∀ e, s.sparse.getD e 0 ≠ 0 →
      s.sparse.getD e 0 ≤ s.dense.length ∧ s.dense.getD (s.sparse.getD e 0 - 1) 0 = e)

/-- Pool well-formedness: the sparse set is coherent and there is exactly
one payload per dense slot. -/
def ecs_pool_wf (p : ecs_pool) : Prop :=
  ecs_ss_wf p.set ∧ p.data.length = p.set.dense.length

/- ------------------------ capacity growth lemmas --------------------------- -/

theorem ecs_cap_grow_go_le : ∀ (fuel cap need : Nat), cap ≠ 0 → need - cap ≤ fuel →
    need ≤ ecs_cap_grow_go fuel cap need ∧ cap ≤ ecs_cap_grow_go fuel cap need := by
  intro fuel
  induction fuel with
  | zero =>
      intro cap need hc hk
      simp only [ecs_cap_grow_go]
      omega
  | succ f ih =>
      intro cap need hc hk
      simp only [ecs_cap_grow_go]
      by_cases hlt : cap < need
      · rw [if_pos hlt]
        have := ih (2 * cap) need (by omega) (by omega)
        omega
      · rw [if_neg hlt]
        omega

theorem ecs_cap_grow_le (cap need : Nat) (h : cap ≠ 0) :
    need ≤ ecs_cap_grow cap need ∧ cap ≤ ecs_cap_grow cap need :=
  ecs_cap_grow_go_le need cap need h (by omega)

theorem ecs_ss_reserve_sparse_getD (s : ecs_sparse_set) (n e : Nat) :
    (ecs_ss_reserve_sparse s n).sparse.getD e 0 = s.sparse.getD e 0 := by
  unfold ecs_ss_reserve_sparse
  by_cases h : n ≤ s.sparse.length
  · simp [h]
  · simp only [h, if_false]
    by_cases he : e < s.sparse.length
    · rw [getD_append_left _ _ _ _ he]
    · rw [getD_append_right _ _ _ _ (by omega), getD_replicate, ite_self,
        getD_of_length_le _ _ _ (by omega)]

theorem ecs_ss_reserve_sparse_dense (s : ecs_sparse_set) (n : Nat) :
    (ecs_ss_reserve_sparse s n).dense = s.dense := by
  unfold ecs_ss_reserve_sparse
  by_cases h : n ≤ s.sparse.length <;> simp [h]

theorem ecs_ss_reserve_sparse_length (s : ecs_sparse_set) (n : Nat) :
    n ≤ (ecs_ss_reserve_sparse s n).sparse.length ∨ n ≤ s.sparse.length := by
  unfold ecs_ss_reserve_sparse
  by_cases h : n ≤ s.sparse.length
  · right; exact h
  · left
    simp only [h, if_false, List.length_append, List.length_replicate]
    split
    · have := ecs_cap_grow_le 1 n (by omega)
      omega
    · have hz : ¬ s.sparse.length = 0 := by assumption
      have := ecs_cap_grow_le s.sparse.length n hz
      omega

theorem ecs_ss_wf_mk (sp de : List Nat)
    (h1 : ∀ i, i < de.length → sp.getD (de.getD i 0) 0 = i + 1)
    (h2 : ∀ e, sp.getD e 0 ≠ 0 →
        sp.getD e 0 ≤ de.length ∧ de.getD (sp.getD e 0 - 1) 0 = e) :
    ecs_ss_wf { sparse := sp, dense := de } := ⟨h1, h2⟩

theorem ecs_ss_reserve_sparse_le (s : ecs_sparse_set) (n : Nat) :
    n ≤ (ecs_ss_reserve_sparse s n).sparse.length := by
  rcases ecs_ss_reserve_sparse_length s n with h | h
  · exact h
  · unfold ecs_ss_reserve_sparse
    rw [if_pos h]
    exact h

/-- `ecs_ss_insert` on an absent entity: full characterisation of the
resulting set, plus preservation of well-formedness. -/
theorem ecs_ss_insert_spec (s : ecs_sparse_set) (e : Nat) (hwf : ecs_ss_wf s)
    (habs : s.sparse.getD e 0 = 0) :
    (ecs_ss_insert s e).1.dense = s.dense ++ [e] ∧
    (ecs_ss_insert s e).1.sparse.getD e 0 = s.dense.length + 1 ∧
    (∀ x, x ≠ e → (ecs_ss_insert s e).1.sparse.getD x 0 = s.sparse.getD x 0) ∧
    ecs_ss_wf (ecs_ss_insert s e).1 := by
  have hres := ecs_ss_reserve_sparse_getD s (e + 1)
  have hdense := ecs_ss_reserve_sparse_dense s (e + 1)
  have hlen := ecs_ss_reserve_sparse_le s (e + 1)
  have he1 : e < (ecs_ss_reserve_sparse s (e + 1)).sparse.length := by omega
  have hcond : ((ecs_ss_reserve_sparse s (e + 1)).sparse.getD e 0 != 0) = false := by
    rw [hres e, habs]
    exact bne_self_eq_false 0
  have hunf : ecs_ss_insert s e =
      ({ sparse := (ecs_ss_reserve_sparse s (e + 1)).sparse.set e
            ((ecs_ss_reserve_sparse s (e + 1)).dense.length + 1),
         dense := (ecs_ss_reserve_sparse s (e + 1)).dense ++ [e] }, 1) := by
    simp only [ecs_ss_insert, hcond, Bool.false_eq_true, if_false]
  rw [hunf, hdense]
  have hgete : ((ecs_ss_reserve_sparse s (e + 1)).sparse.set e
      (s.dense.length + 1)).getD e 0 = s.dense.length + 1 :=
    getD_set_self _ _ _ _ he1
  have hgetx : ∀ x, x ≠ e → ((ecs_ss_reserve_sparse s (e + 1)).sparse.set e
      (s.dense.length + 1)).getD x 0 = s.sparse.getD x 0 := by
    intro x hx
    rw [getD_set_ne _ _ _ _ _ (fun h => hx h.symm), hres x]
  refine ⟨rfl, hgete, hgetx, ecs_ss_wf_mk _ _ ?_ ?_⟩
  · intro i hi
    simp only [List.length_append, List.length_singleton] at hi
    by_cases hin : i < s.dense.length
    · rw [getD_append_left _ _ _ _ hin]
      have hval := hwf.1 i hin
      have hne : s.dense.getD i 0 ≠ e := fun h => by rw [h, habs] at hval; omega
      rw [getD_set_ne _ _ _ _ _ (fun h => hne h.symm), hres]
      exact hval
    · have hieq : i = s.dense.length := by omega
      rw [hieq, getD_append_right _ _ _ _ le_rfl, Nat.sub_self]
      exact hgete
  · intro x hx
    simp only [List.length_append, List.length_singleton]
    by_cases hxe : x = e
    · subst hxe
      rw [hgete] at hx ⊢
      refine ⟨by omega, ?_⟩
      simp only [Nat.add_sub_cancel]
      rw [getD_append_right _ _ _ _ le_rfl, Nat.sub_self]
      rfl
    · rw [hgetx x hxe] at hx ⊢
      have hold := hwf.2 x hx
      refine ⟨by omega, ?_⟩
      rw [getD_append_left _ _ _ _ (by omega)]
      exact hold.2

/-- `ecs_ss_remove` on a present entity: the dense array gets its last
entry swapped into the vacated slot and truncated, `sparse[e]` is cleared,
and only the swapped-in entity's sparse entry is repaired. -/
theorem ecs_ss_remove_spec (s : ecs_sparse_set) (e : Nat) (hwf : ecs_ss_wf s)
    (hpres : s.sparse.getD e 0 ≠ 0) :
    (ecs_ss_remove s e).1.dense =
      (s.dense.set (s.sparse.getD e 0 - 1)
        (s.dense.getD (s.dense.length - 1) 0)).dropLast ∧
    (ecs_ss_remove s e).1.sparse.getD e 0 = 0 ∧
    (∀ x, x ≠ e → (ecs_ss_remove s e).1.sparse.getD x 0 =
      (if x = s.dense.getD (s.dense.length - 1) 0 ∧
          s.dense.getD (s.dense.length - 1) 0 ≠ e
       then s.sparse.getD e 0 else s.sparse.getD x 0)) ∧
    (ecs_ss_remove s e).2 = 1 := by
  have he : e < s.sparse.length := by
    by_contra hc
    exact hpres (getD_of_length_le _ _ _ (by omega))
  have hidx := hwf.2 e hpres
  have hn1 : 1 ≤ s.dense.length := by omega
  have hLval : s.sparse.getD (s.dense.getD (s.dense.length - 1) 0) 0 = s.dense.length :=
    by have := hwf.1 (s.dense.length - 1) (by omega); omega
  have hLlt : s.dense.getD (s.dense.length - 1) 0 < s.sparse.length := by
    by_contra hc
    rw [getD_of_length_le _ _ _ (by omega)] at hLval
    omega
  have hiff : s.sparse.getD e 0 - 1 = s.dense.length - 1 ↔
      s.dense.getD (s.dense.length - 1) 0 = e := by
    constructor
    · intro h; rw [← h]; exact hidx.2
    · intro h; rw [h] at hLval; omega
  have hnle : ¬ s.sparse.length ≤ e := by omega
  by_cases hil : s.sparse.getD e 0 - 1 = s.dense.length - 1
  · have hcond : ((s.sparse.getD e 0 - 1 != s.dense.length - 1)) = false := by
      rw [hil]
      exact bne_self_eq_false _
    have hLe : s.dense.getD (s.dense.length - 1) 0 = e := hiff.1 hil
    have hunf : ecs_ss_remove s e =
        ({ sparse := s.sparse.set e 0,
           dense := (s.dense.set (s.sparse.getD e 0 - 1)
             (s.dense.getD (s.dense.length - 1) 0)).dropLast }, 1) := by
      simp only [ecs_ss_remove, if_neg hnle, if_neg hpres, hcond, Bool.false_eq_true,
        if_false]
    rw [hunf]
    refine ⟨rfl, getD_set_self _ _ _ _ he, ?_, rfl⟩
    intro x hx
    rw [if_neg (by rw [hLe]; exact fun h => h.2 rfl)]
    exact getD_set_ne _ _ _ _ _ (fun h => hx h.symm)
  · have hcond : ((s.sparse.getD e 0 - 1 != s.dense.length - 1)) = true :=
      bne_iff_ne.mpr hil
    have hLe : s.dense.getD (s.dense.length - 1) 0 ≠ e := fun h => hil (hiff.2 h)
    have hunf : ecs_ss_remove s e =
        ({ sparse := (s.sparse.set e 0).set (s.dense.getD (s.dense.length - 1) 0)
             (s.sparse.getD e 0 - 1 + 1),
           dense := (s.dense.set (s.sparse.getD e 0 - 1)
             (s.dense.getD (s.dense.length - 1) 0)).dropLast }, 1) := by
      simp only [ecs_ss_remove, if_neg hnle, if_neg hpres, hcond, if_true]
    rw [hunf]
    refine ⟨rfl, ?_, ?_, rfl⟩
    · rw [getD_set_ne _ _ _ _ _ hLe]
      exact getD_set_self _ _ _ _ he
    · intro x hx
      by_cases hxL : x = s.dense.getD (s.dense.length - 1) 0
      · subst hxL
        rw [if_pos ⟨rfl, hLe⟩, getD_set_self _ _ _ _ (by simpa using hLlt)]
        omega
      · rw [if_neg (fun h => hxL h.1), getD_set_ne _ _ _ _ _ (fun h => hxL h.symm)]
        exact getD_set_ne _ _ _ _ _ (fun h => hx h.symm)

/-- `ecs_ss_remove` on a present entity preserves well-formedness. -/
theorem ecs_ss_remove_wf (s : ecs_sparse_set) (e : Nat) (hwf : ecs_ss_wf s)
    (hpres : s.sparse.getD e 0 ≠ 0) : ecs_ss_wf (ecs_ss_remove s e).1 := by
  obtain ⟨hdense, hse, hsx, -⟩ := ecs_ss_remove_spec s e hwf hpres
  have hidx := hwf.2 e hpres
  have hn1 : 1 ≤ s.dense.length := by omega
  have hLval : s.sparse.getD (s.dense.getD (s.dense.length - 1) 0) 0 = s.dense.length :=
    by have := hwf.1 (s.dense.length - 1) (by omega); omega
  have hiff : s.sparse.getD e 0 - 1 = s.dense.length - 1 ↔
      s.dense.getD (s.dense.length - 1) 0 = e := by
    constructor
    · intro h; rw [← h]; exact hidx.2
    · intro h; rw [h] at hLval; omega
  have hlen : (ecs_ss_remove s e).1.dense.length = s.dense.length - 1 := by
    rw [hdense]
    simp
  have hdget : ∀ j, j < s.dense.length - 1 →
      (ecs_ss_remove s e).1.dense.getD j 0 =
        (if j = s.sparse.getD e 0 - 1 then s.dense.getD (s.dense.length - 1) 0
         else s.dense.getD j 0) := by
    intro j hj
    rw [hdense, getD_dropLast _ _ _ (by simpa using hj)]
    by_cases hji : j = s.sparse.getD e 0 - 1
    · subst hji
      rw [if_pos rfl]
      exact getD_set_self _ _ _ _ (by omega)
    · rw [if_neg hji]
      exact getD_set_ne _ _ _ _ _ (fun h => hji h.symm)
  constructor
  · intro j hj
    rw [hlen] at hj
    rw [hdget j hj]
    by_cases hji : j = s.sparse.getD e 0 - 1
    · rw [if_pos hji]
      have hLe : s.dense.getD (s.dense.length - 1) 0 ≠ e := by
        intro h
        have := hiff.2 h
        omega
      rw [hsx _ hLe, if_pos ⟨rfl, hLe⟩]
      omega
    · rw [if_neg hji]
      have hval := hwf.1 j (by omega)
      have hxe : s.dense.getD j 0 ≠ e := by
        intro h
        rw [h] at hval
        omega
      have hxL : s.dense.getD j 0 ≠ s.dense.getD (s.dense.length - 1) 0 := by
        intro h
        rw [h, hLval] at hval
        omega
      rw [hsx _ hxe, if_neg (fun h => hxL h.1)]
      exact hval
  · intro x hx
    rw [hlen]
    by_cases hxe : x = e
    · subst hxe
      rw [hse] at hx
      omega
    · rw [hsx x hxe] at hx ⊢
      by_cases hxL : x = s.dense.getD (s.dense.length - 1) 0 ∧
          s.dense.getD (s.dense.length - 1) 0 ≠ e
      · rw [if_pos hxL] at hx ⊢
        have hine : s.sparse.getD e 0 - 1 ≠ s.dense.length - 1 :=
          fun h => hxL.2 (hiff.1 h)
        refine ⟨by omega, ?_⟩
        rw [hdget _ (by omega), if_pos (by omega)]
        omega
      · rw [if_neg hxL] at hx ⊢
        have hold := hwf.2 x hx
        have hkne : s.sparse.getD x 0 - 1 ≠ s.sparse.getD e 0 - 1 := by
          intro h
          have hde : s.dense.getD (s.sparse.getD e 0 - 1) 0 = x := by
            rw [← h]
            exact hold.2
          rw [hidx.2] at hde
          exact hxe hde.symm
        have hkne2 : s.sparse.getD x 0 - 1 ≠ s.dense.length - 1 := by
          intro h
          have hxL2 : x = s.dense.getD (s.dense.length - 1) 0 := by
            rw [← h]
            exact hold.2.symm
          exact hxL ⟨hxL2, by rw [← hxL2]; exact hxe⟩
        refine ⟨by omega, ?_⟩
        rw [hdget _ (by omega), if_neg hkne]
        exact hold.2

/-- Under well-formedness the number of present entities equals `count`
(modelled as `dense.length`). -/
theorem ecs_ss_count_eq (s : ecs_sparse_set) (hwf : ecs_ss_wf s) :
    ((Finset.range s.sparse.length).filter (fun e => s.sparse.getD e 0 ≠ 0)).card
      = s.dense.length := by
  have hbij : (Finset.range s.dense.length).card =
      ((Finset.range s.sparse.length).filter fun e => s.sparse.getD e 0 ≠ 0).card := by
    apply Finset.card_bij (fun i _ => s.dense.getD i 0)
    · intro a ha
      rw [Finset.mem_range] at ha
      have hval := hwf.1 a ha
      rw [Finset.mem_filter, Finset.mem_range]
      constructor
      · by_contra hc
        rw [getD_of_length_le _ _ _ (by omega)] at hval
        omega
      · omega
    · intro a1 ha1 a2 ha2 heq
      rw [Finset.mem_range] at ha1 ha2
      have h1 := hwf.1 a1 ha1
      have h2 := hwf.1 a2 ha2
      rw [heq] at h1
      omega
    · intro b hb
      rw [Finset.mem_filter, Finset.mem_range] at hb
      have hold := hwf.2 b hb.2
      exact ⟨s.sparse.getD b 0 - 1, Finset.mem_range.mpr (by omega), hold.2⟩
  rw [Finset.card_range] at hbij
  exact hbij.symm

/- ----------------- Pool operation sequences and abstract model ------------ -/

/-- The structural operations a component pool is driven by: `add` and
`remove` are `ecs_pool_add` / `ecs_pool_remove`; `write` is the caller
storing payload bytes through the pointer `add`/`get` returned (as the
`memcpy` in `ecs_sync`'s `ECS_CMD_ADD` case does). -/
inductive PoolOp where
  | add (e : Nat)
  | remove (e : Nat)
  | write (e : Nat) (v : EcsBytes)
  deriving Repr, DecidableEq

def ecs_pool_apply (pool : ecs_pool) : PoolOp → ecs_pool
  | PoolOp.add e => (ecs_pool_add pool e).1
  | PoolOp.remove e => (ecs_pool_remove pool e).1
  | PoolOp.write e v => ecs_pool_write pool e v

def ecs_pool_run (pool : ecs_pool) (ops : List PoolOp) : ecs_pool :=
  ops.foldl ecs_pool_apply pool

/-- Reference semantics of one operation on the abstract partial map
entity → payload: `add` inserts a zeroed payload when absent, `remove`
erases, `write` overwrites a present payload. -/
def pool_model_apply (esz : Nat) (m : Nat → Option EcsBytes) :
    PoolOp → Nat → Option EcsBytes
  | PoolOp.add e => fun x =>
      if x = e then some ((m e).getD (List.replicate esz 0)) else m x
  | PoolOp.remove e => fun x => if x = e then none else m x
  | PoolOp.write e v => fun x => if x = e ∧ (m e).isSome then some v else m x

def pool_model_run (esz : Nat) (m : Nat → Option EcsBytes) (ops : List PoolOp) :
    Nat → Option EcsBytes :=
  ops.foldl (pool_model_apply esz) m

/-- Coherence between a concrete pool and the abstract map. -/
def PoolCoh (esz : Nat) (p : ecs_pool) (m : Nat → Option EcsBytes) : Prop :=
  ecs_pool_wf p ∧ p.element_size = esz ∧ ∀ e, ecs_pool_get p e = m e

theorem ecs_ss_has_iff (s : ecs_sparse_set) (e : Nat) :
    ecs_ss_has s e = true ↔ s.sparse.getD e 0 ≠ 0 := by
  simp [ecs_ss_has]

theorem ecs_ss_has_false_iff (s : ecs_sparse_set) (e : Nat) :
    ecs_ss_has s e = false ↔ s.sparse.getD e 0 = 0 := by
  simp [ecs_ss_has]

theorem ecs_pool_get_present (p : ecs_pool) (e : Nat)
    (h : ecs_ss_has p.set e = true) :
    ecs_pool_get p e = some (p.data.getD (p.set.sparse.getD e 0 - 1) []) := by
  simp only [ecs_pool_get, h, Bool.not_true, Bool.false_eq_true, if_false]

theorem ecs_pool_get_absent (p : ecs_pool) (e : Nat)
    (h : ecs_ss_has p.set e = false) : ecs_pool_get p e = none := by
  simp only [ecs_pool_get, h, Bool.not_false, if_true]

theorem ecs_pool_add_present (p : ecs_pool) (e : Nat)
    (h : ecs_ss_has p.set e = true) :
    ecs_pool_add p e = (p, p.data.getD (p.set.sparse.getD e 0 - 1) []) := by
  simp only [ecs_pool_add, h, Bool.not_true, Bool.false_eq_true, if_false]

theorem ecs_pool_add_absent (p : ecs_pool) (e : Nat)
    (h : ecs_ss_has p.set e = false) :
    ecs_pool_add p e =
      ({ p with
          set := (ecs_ss_insert p.set e).1,
          data := p.data ++ [List.replicate p.element_size 0] },
       List.replicate p.element_size 0) := by
  simp only [ecs_pool_add, h, Bool.not_false, if_true]

theorem ecs_pool_remove_absent (p : ecs_pool) (e : Nat)
    (h : ecs_ss_has p.set e = false) : ecs_pool_remove p e = (p, 0) := by
  simp only [ecs_pool_remove, h, Bool.not_false, if_true]

theorem ecs_pool_remove_present (p : ecs_pool) (e : Nat)
    (h : ecs_ss_has p.set e = true) :
    ecs_pool_remove p e =
      ({ p with
          set := (ecs_ss_remove p.set e).1,
          data := (if (p.set.sparse.getD e 0 - 1 != p.set.dense.length - 1)
            then p.data.set (p.set.sparse.getD e 0 - 1)
              (p.data.getD (p.set.dense.length - 1) [])
            else p.data).dropLast },
       (ecs_ss_remove p.set e).2) := by
  simp only [ecs_pool_remove, h, Bool.not_true, Bool.false_eq_true, if_false]

theorem ecs_pool_write_present (p : ecs_pool) (e : Nat) (v : EcsBytes)
    (h : ecs_ss_has p.set e = true) :
    ecs_pool_write p e v =
      { p with data := p.data.set (p.set.sparse.getD e 0 - 1) v } := by
  simp only [ecs_pool_write, h, Bool.not_true, Bool.false_eq_true, if_false]

theorem ecs_pool_write_absent (p : ecs_pool) (e : Nat) (v : EcsBytes)
    (h : ecs_ss_has p.set e = false) : ecs_pool_write p e v = p := by
  simp only [ecs_pool_write, h, Bool.not_false, if_true]

/-- Closed form of `ecs_pool_get` on a literal pool record. -/
theorem ecs_pool_get_eq (st : ecs_sparse_set) (da : List EcsBytes) (es x : Nat) :
    ecs_pool_get { set := st, data := da, element_size := es } x =
      (if st.sparse.getD x 0 ≠ 0
       then some (da.getD (st.sparse.getD x 0 - 1) []) else none) := by
  by_cases hx : st.sparse.getD x 0 = 0
  · rw [if_neg (by omega)]
    exact ecs_pool_get_absent _ x ((ecs_ss_has_false_iff _ _).2 hx)
  · rw [if_pos hx]
    exact ecs_pool_get_present _ x ((ecs_ss_has_iff _ _).2 hx)

/-- Under well-formedness, the removed slot is the last one exactly when
the removed entity is the last dense entry. -/
theorem ecs_ss_last_iff (s : ecs_sparse_set) (e : Nat) (hwf : ecs_ss_wf s)
    (hpres : s.sparse.getD e 0 ≠ 0) :
    s.sparse.getD e 0 - 1 = s.dense.length - 1 ↔
      s.dense.getD (s.dense.length - 1) 0 = e := by
  have hidx := hwf.2 e hpres
  have hLval : s.sparse.getD (s.dense.getD (s.dense.length - 1) 0) 0 = s.dense.length :=
    by have := hwf.1 (s.dense.length - 1) (by omega); omega
  constructor
  · intro h; rw [← h]; exact hidx.2
  · intro h; rw [h] at hLval; omega


/-- One structural operation keeps the concrete pool coherent with the
abstract map semantics. -/
theorem pool_coh_step (esz : Nat) (p : ecs_pool) (m : Nat → Option EcsBytes)
    (op : PoolOp) (h : PoolCoh esz p m) :
    PoolCoh esz (ecs_pool_apply p op) (pool_model_apply esz m op) := by
  obtain ⟨⟨hwf, hdlen⟩, hesz, hget⟩ := h
  cases op with
  | add e =>
    cases hhas : ecs_ss_has p.set e with
    | true =>
      have heq := ecs_pool_add_present p e hhas
      simp only [ecs_pool_apply, heq]
      refine ⟨⟨hwf, hdlen⟩, hesz, ?_⟩
      intro x
      simp only [pool_model_apply]
      by_cases hxe : x = e
      · subst hxe
        rw [if_pos rfl, ← hget x, ecs_pool_get_present p x hhas]
        rfl
      · rw [if_neg hxe]
        exact hget x
    | false =>
      have habs : p.set.sparse.getD e 0 = 0 := (ecs_ss_has_false_iff _ _).1 hhas
      obtain ⟨hid, hie, hix, hiwf⟩ := ecs_ss_insert_spec p.set e hwf habs
      have heq := ecs_pool_add_absent p e hhas
      have hme : m e = none := by
        rw [← hget e]
        exact ecs_pool_get_absent p e hhas
      simp only [ecs_pool_apply, heq]
      refine ⟨⟨hiwf, ?_⟩, hesz, ?_⟩
      · show (p.data ++ [List.replicate p.element_size 0]).length =
          (ecs_ss_insert p.set e).1.dense.length
        rw [hid]
        simp [hdlen]
      · intro x
        simp only [pool_model_apply]
        rw [ecs_pool_get_eq]
        by_cases hxe : x = e
        · subst hxe
          rw [hie, hme, if_pos rfl, Option.getD_none,
            if_pos (show p.set.dense.length + 1 ≠ 0 by omega), Nat.add_sub_cancel,
            getD_append_right _ _ _ _ (by omega)]
          have hz : p.set.dense.length - p.data.length = 0 := by omega
          rw [hz]
          simp [hesz]
        · rw [hix x hxe, if_neg hxe, ← hget x]
          cases hhx : ecs_ss_has p.set x with
          | true =>
            have hpx := (ecs_ss_has_iff _ _).1 hhx
            have hk := hwf.2 x hpx
            rw [if_pos hpx, ecs_pool_get_present p x hhx,
              getD_append_left _ _ _ _ (by omega)]
          | false =>
            have hpx := (ecs_ss_has_false_iff _ _).1 hhx
            rw [ecs_pool_get_absent p x hhx, if_neg (by omega)]
  | remove e =>
    cases hhas : ecs_ss_has p.set e with
    | false =>
      have heq := ecs_pool_remove_absent p e hhas
      simp only [ecs_pool_apply, heq]
      refine ⟨⟨hwf, hdlen⟩, hesz, ?_⟩
      intro x
      simp only [pool_model_apply]
      by_cases hxe : x = e
      · subst hxe
        rw [if_pos rfl]
        exact ecs_pool_get_absent p x hhas
      · rw [if_neg hxe]
        exact hget x
    | true =>
      have hpres := (ecs_ss_has_iff _ _).1 hhas
      obtain ⟨hrd, hre, hrx, -⟩ := ecs_ss_remove_spec p.set e hwf hpres
      have hrwf := ecs_ss_remove_wf p.set e hwf hpres
      have hiff := ecs_ss_last_iff p.set e hwf hpres
      have hidx := hwf.2 e hpres
      have hn1 : 1 ≤ p.set.dense.length := by omega
      have hLval : p.set.sparse.getD (p.set.dense.getD (p.set.dense.length - 1) 0) 0
          = p.set.dense.length := by
        have := hwf.1 (p.set.dense.length - 1) (by omega)
        omega
      have heq := ecs_pool_remove_present p e hhas
      simp only [ecs_pool_apply, heq]
      have hrdlen : (ecs_ss_remove p.set e).1.dense.length = p.set.dense.length - 1 := by
        rw [hrd]
        simp
      have hdif : (if (p.set.sparse.getD e 0 - 1 != p.set.dense.length - 1)
          then p.data.set (p.set.sparse.getD e 0 - 1)
            (p.data.getD (p.set.dense.length - 1) [])
          else p.data).length = p.data.length := by
        split <;> simp
      refine ⟨⟨hrwf, ?_⟩, hesz, ?_⟩
      · show (if (p.set.sparse.getD e 0 - 1 != p.set.dense.length - 1)
            then p.data.set (p.set.sparse.getD e 0 - 1)
              (p.data.getD (p.set.dense.length - 1) [])
            else p.data).dropLast.length = (ecs_ss_remove p.set e).1.dense.length
        rw [List.length_dropLast, hdif, hrdlen, hdlen]
      · intro x
        simp only [pool_model_apply]
        rw [ecs_pool_get_eq]
        by_cases hxe : x = e
        · subst hxe
          rw [hre, if_neg (show ¬((0 : Nat) ≠ 0) by omega),
            if_pos (rfl : x = x)]
        · rw [if_neg hxe, ← hget x]
          cases hhx : ecs_ss_has p.set x with
          | false =>
            have hpx := (ecs_ss_has_false_iff _ _).1 hhx
            have hxL : x ≠ p.set.dense.getD (p.set.dense.length - 1) 0 := by
              intro hc
              rw [hc, hLval] at hpx
              omega
            have hsx : (ecs_ss_remove p.set e).1.sparse.getD x 0 =
                p.set.sparse.getD x 0 := by
              rw [hrx x hxe]
              exact if_neg (fun hc => hxL hc.1)
            rw [hsx, ecs_pool_get_absent p x hhx,
              if_neg (show ¬ p.set.sparse.getD x 0 ≠ 0 by omega)]
          | true =>
            have hpx := (ecs_ss_has_iff _ _).1 hhx
            have hk := hwf.2 x hpx
            rw [ecs_pool_get_present p x hhx]
            by_cases hxL : x = p.set.dense.getD (p.set.dense.length - 1) 0
            · have hLe : p.set.dense.getD (p.set.dense.length - 1) 0 ≠ e := by
                rw [← hxL]
                exact hxe
              have hine : p.set.sparse.getD e 0 - 1 ≠ p.set.dense.length - 1 :=
                fun hc => hLe (hiff.1 hc)
              have hcond : ((p.set.sparse.getD e 0 - 1 != p.set.dense.length - 1))
                  = true := bne_iff_ne.mpr hine
              have hsx : (ecs_ss_remove p.set e).1.sparse.getD x 0 =
                  p.set.sparse.getD e 0 := by
                rw [hrx x hxe]
                exact if_pos ⟨hxL, hLe⟩
              rw [hsx, if_pos hpres, hcond, if_pos (rfl : (true : Bool) = true)]
              congr 1
              rw [getD_dropLast _ _ _ (by simp only [List.length_set]; omega),
                getD_set_self _ _ _ _ (by omega), hxL, hLval]
            · have hsx : (ecs_ss_remove p.set e).1.sparse.getD x 0 =
                  p.set.sparse.getD x 0 := by
                rw [hrx x hxe]
                exact if_neg (fun hc => hxL hc.1)
              rw [hsx, if_pos hpx]
              congr 1
              have hkne : p.set.sparse.getD x 0 - 1 ≠ p.set.sparse.getD e 0 - 1 := by
                intro hc
                have hde : p.set.dense.getD (p.set.sparse.getD e 0 - 1) 0 = x := by
                  rw [← hc]
                  exact hk.2
                rw [hidx.2] at hde
                exact hxe hde.symm
              have hkne2 : p.set.sparse.getD x 0 - 1 ≠ p.set.dense.length - 1 := by
                intro hc
                apply hxL
                rw [← hc]
                exact hk.2.symm
              rw [getD_dropLast _ _ _ (by rw [hdif]; omega)]
              split
              · rw [getD_set_ne _ _ _ _ _ (fun hc => hkne hc.symm)]
              · rfl
  | write e v =>
    cases hhas : ecs_ss_has p.set e with
    | false =>
      have heq := ecs_pool_write_absent p e v hhas
      simp only [ecs_pool_apply, heq]
      refine ⟨⟨hwf, hdlen⟩, hesz, ?_⟩
      intro x
      simp only [pool_model_apply]
      have hme : m e = none := by
        rw [← hget e]
        exact ecs_pool_get_absent p e hhas
      rw [if_neg (fun hc => by simp [hme] at hc)]
      exact hget x
    | true =>
      have hpres := (ecs_ss_has_iff _ _).1 hhas
      have hk := hwf.2 e hpres
      have heq := ecs_pool_write_present p e v hhas
      simp only [ecs_pool_apply, heq]
      have hms : (m e).isSome = true := by
        rw [← hget e, ecs_pool_get_present p e hhas]
        rfl
      refine ⟨⟨hwf, by simpa using hdlen⟩, hesz, ?_⟩
      intro x
      simp only [pool_model_apply]
      rw [ecs_pool_get_eq]
      by_cases hxe : x = e
      · subst hxe
        rw [if_pos hpres, if_pos (show x = x ∧ (m x).isSome = true from ⟨rfl, hms⟩)]
        congr 1
        exact getD_set_self _ _ _ _ (by omega)
      · rw [if_neg (show ¬(x = e ∧ (m e).isSome = true) from fun hc => hxe hc.1),
          ← hget x]
        cases hhx : ecs_ss_has p.set x with
        | false =>
          have hpx := (ecs_ss_has_false_iff _ _).1 hhx
          rw [ecs_pool_get_absent p x hhx,
            if_neg (show ¬ p.set.sparse.getD x 0 ≠ 0 by omega)]
        | true =>
          have hpx := (ecs_ss_has_iff _ _).1 hhx
          have hkx := hwf.2 x hpx
          have hkne : p.set.sparse.getD e 0 - 1 ≠ p.set.sparse.getD x 0 - 1 := by
            intro hc
            have hde : p.set.dense.getD (p.set.sparse.getD x 0 - 1) 0 = e := by
              rw [← hc]
              exact hk.2
            rw [hkx.2] at hde
            exact hxe hde
          rw [ecs_pool_get_present p x hhx, if_pos hpx]
          congr 1
          exact getD_set_ne _ _ _ _ _ hkne

theorem pool_coh_run (esz : Nat) (ops : List PoolOp) :
    ∀ (p : ecs_pool) (m : Nat → Option EcsBytes), PoolCoh esz p m →
      PoolCoh esz (ecs_pool_run p ops) (pool_model_run esz m ops) := by
  induction ops with
  | nil => intro p m h; exact h
  | cons op ops ih =>
      intro p m h
      exact ih _ _ (pool_coh_step esz p m op h)

theorem pool_coh_init (esz : Nat) :
    PoolCoh esz (ecs_pool_init esz) (fun _ => none) := by
  refine ⟨⟨⟨?_, ?_⟩, rfl⟩, rfl, ?_⟩
  · intro i hi
    simp [ecs_pool_init] at hi
  · intro e he
    simp [ecs_pool_init, List.getD] at he
  · intro e
    exact ecs_pool_get_absent _ e (by simp [ecs_ss_has, ecs_pool_init, List.getD])

/-- C5: after any sequence of pool operations on a fresh pool, the pool
satisfies `dense[sparse[e]-1] = e` for every present entity `e`, the
number of present entities equals `count` (= `dense.length`), there is
exactly one payload per dense slot, and every entity's payload is the one
the abstract map semantics prescribes (so removal's swap-with-last keeps
every other entity's payload intact). -/
theorem C5_pool_invariants (esz : Nat) (ops : List PoolOp) :
    (∀ e, (ecs_pool_run (ecs_pool_init esz) ops).set.sparse.getD e 0 ≠ 0 →
      (ecs_pool_run (ecs_pool_init esz) ops).set.dense.getD
        ((ecs_pool_run (ecs_pool_init esz) ops).set.sparse.getD e 0 - 1) 0 = e) ∧
    ecs_ss_wf (ecs_pool_run (ecs_pool_init esz) ops).set ∧
    (ecs_pool_run (ecs_pool_init esz) ops).data.length =
      (ecs_pool_run (ecs_pool_init esz) ops).set.dense.length ∧
    ((Finset.range (ecs_pool_run (ecs_pool_init esz) ops).set.sparse.length).filter
        (fun e => (ecs_pool_run (ecs_pool_init esz) ops).set.sparse.getD e 0 ≠ 0)).card
      = (ecs_pool_run (ecs_pool_init esz) ops).set.dense.length ∧
    (∀ e, ecs_pool_get (ecs_pool_run (ecs_pool_init esz) ops) e =
      pool_model_run esz (fun _ => none) ops e) := by
  obtain ⟨⟨hwf, hdlen⟩, hesz, hget⟩ :=
    pool_coh_run esz ops _ _ (pool_coh_init esz)
  exact ⟨fun e he => (hwf.2 e he).2, hwf, hdlen, ecs_ss_count_eq _ hwf, hget⟩

/-- C6 (amended): for an entity index at or beyond `sparse_cap`, membership
reports absent, `get` returns NULL, and `remove` returns 0 with no effect
on the pool. -/
theorem C6_out_of_range_reports_absent (p : ecs_pool) (e : Int)
    (h : (p.set.sparse.length : Int) ≤ e) :
    ecs_ss_has_int p.set e = some false ∧
    ecs_pool_get_int p e = some none ∧
    ecs_pool_remove_int p e = some (p, 0) := by
  refine ⟨?_, ?_, ?_⟩
  · unfold ecs_ss_has_int
    rw [if_neg (by omega)]
  · unfold ecs_pool_get_int
    rw [if_neg (by omega)]
  · unfold ecs_pool_remove_int
    rw [if_neg (by omega)]

theorem C6_out_of_range_reports_absent_witness :
    (((ecs_pool_init 4).set.sparse.length : Int) ≤ 5) ∧
    (ecs_ss_has_int (ecs_pool_init 4).set 5 = some false ∧
     ecs_pool_get_int (ecs_pool_init 4) 5 = some none ∧
     ecs_pool_remove_int (ecs_pool_init 4) 5 = some (ecs_pool_init 4, 0)) :=
  ⟨by decide, C6_out_of_range_reports_absent (ecs_pool_init 4) 5 (by decide)⟩

/-- C6 counterexample: at a negative entity index the C code does not
report absent — `entity < sparse_cap` passes (signed comparison) and
`sparse[entity]` is read out of bounds, modelled as `none`; so none of the
three functions return the claimed absent result. -/
theorem C6_negative_index_cex :
    ecs_ss_has_int (ecs_pool_init 4).set (-1) ≠ some false ∧
    ecs_pool_get_int (ecs_pool_init 4) (-1) ≠ some none ∧
    ecs_pool_remove_int (ecs_pool_init 4) (-1) ≠ some (ecs_pool_init 4, 0) ∧
    ecs_ss_has_int (ecs_pool_init 4).set (-1) = none := by
  refine ⟨by decide, by decide, by decide, by decide⟩

/- ----------------------------- Command Buffer ----------------------------- -/

/-- `ecs_cmd`: one deferred structural change (`ECS_CMD_DESTROY` /
`ECS_CMD_ADD` / `ECS_CMD_REMOVE`); ADD carries the staged payload bytes
the caller initialised in the command arena. -/
inductive ecs_cmd where
  | destroy (entity : Nat)
  | add (entity : Nat) (component : Nat) (component_data : EcsBytes)
  | remove (entity : Nat) (component : Nat)
  deriving Repr, DecidableEq

/- ------------------------------- Systems ---------------------------------- -/

/-- Model of a system callback (`ecs_system_fn` + its `udata`): from the
view's entity list it returns the status and the commands the call
enqueues into the current lane's command buffer (via
`ecs_add`/`ecs_remove`/`ecs_destroy` while `in_progress` is set). -/
abbrev EcsSystemFn := List Nat → Int × List ecs_cmd

/-- `ecs_system`.  `phase` is the group tag set by `ecs_sys_set_phase`
(small non-negative C ints in use, modelled as `Nat`); the derived `rw`
field of the C record is omitted because the modelled code never reads
it (`ecs_phase_can_accept` recomputes `read ∪ write`). -/
structure ecs_system where
  all_of : Finset Nat
  none_of : Finset Nat
  read : Finset Nat
  write : Finset Nat
  phase : Nat
  fn : EcsSystemFn
  enabled : Bool

instance : Inhabited ecs_system :=
  ⟨{ all_of := ∅, none_of := ∅, read := ∅, write := ∅, phase := 0,
     fn := fun _ => (0, []), enabled := true }⟩

/- ------------------------------ Scheduling -------------------------------- -/

/-- `ecs_phase` (an execution stage): accumulated read/write unions and
the member system indices in placement order. -/
structure ecs_phase where
  read_union : Finset Nat
  write_union : Finset Nat
  sys_idx : List Nat
  deriving DecidableEq, Inhabited

/-- `ecs_phase_can_accept`: the system's writes must not touch the
phase's reads or writes, and the phase's writes must not touch the
system's reads or writes. -/
def ecs_phase_can_accept (p : ecs_phase) (s : ecs_system) : Bool :=
  if (s.write ∩ (p.read_union ∪ p.write_union)).Nonempty then false
  else if (p.write_union ∩ (s.read ∪ s.write)).Nonempty then false
  else true

/-- `ecs_phase_add_system`. -/
def ecs_phase_add_system (p : ecs_phase) (sys_index : Nat) (s : ecs_system) :
    ecs_phase :=
  { read_union := p.read_union ∪ s.read,
    write_union := p.write_union ∪ s.write,
    sys_idx := p.sys_idx ++ [sys_index] }

/-- The inner loop of `ecs_build_phases`: place system `i` into the first
phase that accepts it. -/
def ecs_place : List ecs_phase → Nat → ecs_system → Option (List ecs_phase)
  | [], _, _ => none
  | p :: rest, i, s =>
      if ecs_phase_can_accept p s then some (ecs_phase_add_system p i s :: rest)
      else (ecs_place rest i s).map (List.cons p)

/-- One iteration of the outer loop of `ecs_build_phases`: on failure a
new phase is created at the end for this system. -/
def ecs_build_step (phases : List ecs_phase) (i : Nat) (s : ecs_system) :
    List ecs_phase :=
  match ecs_place phases i s with
  | some phases2 => phases2
  | none =>
      phases ++ [ecs_phase_add_system
        { read_union := ∅, write_union := ∅, sys_idx := [] } i s]

def ecs_build_go : List ecs_system → Nat → List ecs_phase → List ecs_phase
  | [], _, phases => phases
  | s :: rest, i, phases => ecs_build_go rest (i + 1) (ecs_build_step phases i s)

/-- `ecs_build_phases`: greedy, registration-order stable phase building
(the C `max_phases = ECS_MAX_SYSTEMS` bound is never hit because each
system adds at most one phase). -/
def ecs_build_phases (systems : List ecs_system) : List ecs_phase :=
  ecs_build_go systems 0 []

/-- The conflict predicate of the spec:
`(A.write ∩ (B.read ∪ B.write)) ≠ ∅ ∨ (B.write ∩ (A.read ∪ A.write)) ≠ ∅`. -/
def ecs_conflict (a b : ecs_system) : Prop :=
  (a.write ∩ (b.read ∪ b.write)).Nonempty ∨ (b.write ∩ (a.read ∪ a.write)).Nonempty

instance (a b : ecs_system) : Decidable (ecs_conflict a b) := by
  unfold ecs_conflict
  infer_instance

theorem ecs_conflict_symm (a b : ecs_system) : ecs_conflict a b ↔ ecs_conflict b a :=
  or_comm

/-- The stage index holding system `i` (first phase whose member list
contains it). -/
def ecs_stage_of : List ecs_phase → Nat → Option Nat
  | [], _ => none
  | p :: rest, i =>
      if p.sys_idx.contains i then some 0
      else (ecs_stage_of rest i).map (fun k => k + 1)

theorem ecs_phase_can_accept_true_iff (p : ecs_phase) (s : ecs_system) :
    ecs_phase_can_accept p s = true ↔
      ¬(s.write ∩ (p.read_union ∪ p.write_union)).Nonempty ∧
      ¬(p.write_union ∩ (s.read ∪ s.write)).Nonempty := by
  unfold ecs_phase_can_accept
  split_ifs with h1 h2
  · simp [h1]
  · simp [h1, h2]
  · simp [h1, h2]

/-- Invariant of a built phase: the unions are exactly the unions of the
members' declared read/write sets. -/
def PhaseInv (systems : List ecs_system) (p : ecs_phase) : Prop :=
  (∀ j ∈ p.sys_idx, (systems.getD j default).read ⊆ p.read_union ∧
      (systems.getD j default).write ⊆ p.write_union) ∧
  (∀ c ∈ p.read_union, ∃ j ∈ p.sys_idx, c ∈ (systems.getD j default).read) ∧
  (∀ c ∈ p.write_union, ∃ j ∈ p.sys_idx, c ∈ (systems.getD j default).write)

/-- If a phase accepts a system, the system conflicts with none of the
phase's members. -/
theorem can_accept_no_conflict (systems : List ecs_system) (p : ecs_phase)
    (s : ecs_system) (hinv : PhaseInv systems p)
    (hacc : ecs_phase_can_accept p s = true) :
    ∀ j ∈ p.sys_idx, ¬ ecs_conflict (systems.getD j default) s := by
  rw [ecs_phase_can_accept_true_iff] at hacc
  intro j hj hconf
  rcases hconf with hc | hc
  · obtain ⟨c, hcmem⟩ := hc
    rw [Finset.mem_inter] at hcmem
    exact hacc.2 ⟨c, Finset.mem_inter.2 ⟨(hinv.1 j hj).2 hcmem.1, hcmem.2⟩⟩
  · obtain ⟨c, hcmem⟩ := hc
    rw [Finset.mem_inter] at hcmem
    rcases Finset.mem_union.1 hcmem.2 with hr | hw
    · exact hacc.1 ⟨c, Finset.mem_inter.2
        ⟨hcmem.1, Finset.mem_union.2 (Or.inl ((hinv.1 j hj).1 hr))⟩⟩
    · exact hacc.1 ⟨c, Finset.mem_inter.2
        ⟨hcmem.1, Finset.mem_union.2 (Or.inr ((hinv.1 j hj).2 hw))⟩⟩

/-- If a phase rejects a system, some member conflicts with it. -/
theorem can_accept_false_conflict (systems : List ecs_system) (p : ecs_phase)
    (s : ecs_system) (hinv : PhaseInv systems p)
    (hacc : ecs_phase_can_accept p s = false) :
    ∃ j ∈ p.sys_idx, ecs_conflict (systems.getD j default) s := by
  unfold ecs_phase_can_accept at hacc
  split_ifs at hacc with h1 h2
  · obtain ⟨c, hc⟩ := h1
    rw [Finset.mem_inter] at hc
    rcases Finset.mem_union.1 hc.2 with hr | hw
    · obtain ⟨j, hj, hjr⟩ := hinv.2.1 c hr
      exact ⟨j, hj, Or.inr ⟨c, Finset.mem_inter.2
        ⟨hc.1, Finset.mem_union.2 (Or.inl hjr)⟩⟩⟩
    · obtain ⟨j, hj, hjw⟩ := hinv.2.2 c hw
      exact ⟨j, hj, Or.inr ⟨c, Finset.mem_inter.2
        ⟨hc.1, Finset.mem_union.2 (Or.inr hjw)⟩⟩⟩
  · obtain ⟨c, hc⟩ := h2
    rw [Finset.mem_inter] at hc
    obtain ⟨j, hj, hjw⟩ := hinv.2.2 c hc.1
    exact ⟨j, hj, Or.inl ⟨c, Finset.mem_inter.2 ⟨hjw, hc.2⟩⟩⟩

theorem PhaseInv_empty (systems : List ecs_system) :
    PhaseInv systems { read_union := ∅, write_union := ∅, sys_idx := [] } := by
  refine ⟨?_, ?_, ?_⟩
  · intro j hj
    simp at hj
  · intro c hc
    simp at hc
  · intro c hc
    simp at hc

theorem PhaseInv_add_system (systems : List ecs_system) (p : ecs_phase) (i : Nat)
    (hinv : PhaseInv systems p) :
    PhaseInv systems (ecs_phase_add_system p i (systems.getD i default)) := by
  unfold ecs_phase_add_system
  refine ⟨?_, ?_, ?_⟩
  · intro j hj
    rw [List.mem_append] at hj
    rcases hj with hj | hj
    · have hh := hinv.1 j hj
      exact ⟨hh.1.trans Finset.subset_union_left, hh.2.trans Finset.subset_union_left⟩
    · rw [List.mem_singleton] at hj
      subst hj
      exact ⟨Finset.subset_union_right, Finset.subset_union_right⟩
  · intro c hc
    rcases Finset.mem_union.1 hc with hc | hc
    · obtain ⟨j, hj, hh⟩ := hinv.2.1 c hc
      exact ⟨j, List.mem_append.2 (Or.inl hj), hh⟩
    · exact ⟨i, List.mem_append.2 (Or.inr (List.mem_singleton.2 rfl)), hc⟩
  · intro c hc
    rcases Finset.mem_union.1 hc with hc | hc
    · obtain ⟨j, hj, hh⟩ := hinv.2.2 c hc
      exact ⟨j, List.mem_append.2 (Or.inl hj), hh⟩
    · exact ⟨i, List.mem_append.2 (Or.inr (List.mem_singleton.2 rfl)), hc⟩

theorem ecs_place_none : ∀ (phases : List ecs_phase) (i : Nat) (s : ecs_system),
    ecs_place phases i s = none → ∀ p ∈ phases, ecs_phase_can_accept p s = false := by
  intro phases
  induction phases with
  | nil =>
      intro i s h p hp
      simp at hp
  | cons q rest ih =>
      intro i s h p hp
      unfold ecs_place at h
      by_cases hq : ecs_phase_can_accept q s = true
      · rw [if_pos hq] at h
        exact absurd h (by simp)
      · rw [if_neg hq] at h
        rw [List.mem_cons] at hp
        rcases hp with hp | hp
        · subst hp
          simpa using hq
        · have hrec : ecs_place rest i s = none := by
            cases hr : ecs_place rest i s with
            | none => rfl
            | some out =>
                rw [hr] at h
                simp at h
          exact ih i s hrec p hp

theorem ecs_place_some : ∀ (phases : List ecs_phase) (i : Nat) (s : ecs_system)
    (out : List ecs_phase), ecs_place phases i s = some out →
    ∃ k, k < phases.length ∧
      ecs_phase_can_accept (phases.getD k default) s = true ∧
      (∀ r, r < k → ecs_phase_can_accept (phases.getD r default) s = false) ∧
      out = phases.set k (ecs_phase_add_system (phases.getD k default) i s) := by
  intro phases
  induction phases with
  | nil =>
      intro i s out h
      simp [ecs_place] at h
  | cons q rest ih =>
      intro i s out h
      unfold ecs_place at h
      by_cases hq : ecs_phase_can_accept q s = true
      · rw [if_pos hq] at h
        refine ⟨0, by simp, by simpa using hq, by omega, ?_⟩
        simp only [Option.some.injEq] at h
        rw [← h]
        rfl
      · rw [if_neg hq] at h
        cases hr : ecs_place rest i s with
        | none =>
            rw [hr] at h
            simp at h
        | some out2 =>
            rw [hr] at h
            simp at h
            obtain ⟨k, hk, hacc, hbefore, hout⟩ := ih i s out2 hr
            refine ⟨k + 1, by simpa using hk, by simpa using hacc, ?_, ?_⟩
            · intro r hrk
              cases r with
              | zero => simpa using hq
              | succ r2 => simpa using hbefore r2 (by omega)
            · rw [← h, hout]
              simp [List.set_cons_succ]

theorem ecs_stage_of_mem : ∀ (phases : List ecs_phase) (i k : Nat),
    ecs_stage_of phases i = some k →
      k < phases.length ∧ i ∈ (phases.getD k default).sys_idx := by
  intro phases
  induction phases with
  | nil =>
      intro i k h
      simp [ecs_stage_of] at h
  | cons q rest ih =>
      intro i k h
      unfold ecs_stage_of at h
      by_cases hq : q.sys_idx.contains i = true
      · rw [if_pos hq] at h
        simp only [Option.some.injEq] at h
        subst h
        exact ⟨by simp, by simpa using hq⟩
      · rw [if_neg hq] at h
        cases hrec : ecs_stage_of rest i with
        | none =>
            rw [hrec] at h
            simp at h
        | some k2 =>
            rw [hrec] at h
            simp only [Option.map_some', Option.some.injEq] at h
            obtain ⟨h1, h2⟩ := ih i k2 hrec
            rw [← h]
            exact ⟨by simpa using h1, by simpa [List.getD_cons_succ] using h2⟩

theorem ecs_stage_of_first : ∀ (phases : List ecs_phase) (i k : Nat),
    k < phases.length → i ∈ (phases.getD k default).sys_idx →
    (∀ r, r < k → i ∉ (phases.getD r default).sys_idx) →
    ecs_stage_of phases i = some k := by
  intro phases
  induction phases with
  | nil =>
      intro i k hk
      simp at hk
  | cons q rest ih =>
      intro i k hk hmem hbefore
      unfold ecs_stage_of
      cases k with
      | zero =>
          rw [if_pos (by simpa using hmem)]
      | succ k2 =>
          have hq : ¬ (q.sys_idx.contains i = true) := by
            simpa using hbefore 0 (by omega)
          have hbefore2 : ∀ r, r < k2 → i ∉ (rest.getD r default).sys_idx := by
            intro r hr
            simpa [List.getD_cons_succ] using hbefore (r + 1) (by omega)
          rw [if_neg hq,
            ih i k2 (by simpa using hk) (by simpa [List.getD_cons_succ] using hmem)
              hbefore2]
          rfl

theorem ecs_stage_of_congr : ∀ (phases phases2 : List ecs_phase) (i : Nat),
    phases.length = phases2.length →
    (∀ k, (i ∈ (phases.getD k default).sys_idx ↔
        i ∈ (phases2.getD k default).sys_idx)) →
    ecs_stage_of phases i = ecs_stage_of phases2 i := by
  intro phases
  induction phases with
  | nil =>
      intro phases2 i hl hpt
      cases phases2 with
      | nil => rfl
      | cons q2 rest2 => simp at hl
  | cons q rest ih =>
      intro phases2 i hl hpt
      cases phases2 with
      | nil => simp at hl
      | cons q2 rest2 =>
          unfold ecs_stage_of
          have h0 := hpt 0
          simp only [List.getD_cons_zero] at h0
          by_cases hq : q.sys_idx.contains i = true
          · have hq2 : q2.sys_idx.contains i = true := by
              have hm : i ∈ q.sys_idx := by simpa using hq
              simpa using h0.1 hm
            rw [if_pos hq, if_pos hq2]
          · have hq2 : ¬ (q2.sys_idx.contains i = true) := by
              intro hc
              exact hq (by simpa using h0.2 (by simpa using hc))
            rw [if_neg hq, if_neg hq2,
              ih rest2 i (by simpa using hl)
                (fun k => by simpa [List.getD_cons_succ] using hpt (k + 1))]

theorem ecs_stage_of_append : ∀ (phases extra : List ecs_phase) (i k : Nat),
    ecs_stage_of phases i = some k → ecs_stage_of (phases ++ extra) i = some k := by
  intro phases
  induction phases with
  | nil =>
      intro extra i k h
      simp [ecs_stage_of] at h
  | cons q rest ih =>
      intro extra i k h
      rw [List.cons_append]
      unfold ecs_stage_of at h ⊢
      by_cases hq : q.sys_idx.contains i = true
      · rw [if_pos hq] at h ⊢
        exact h
      · rw [if_neg hq] at h ⊢
        cases hrec : ecs_stage_of rest i with
        | none =>
            rw [hrec] at h
            simp at h
        | some k2 =>
            rw [hrec] at h
            rw [ih extra i k2 hrec]
            exact h

theorem ecs_stage_of_append_singleton : ∀ (phases : List ecs_phase)
    (q : ecs_phase) (i : Nat), ecs_stage_of phases i = none → i ∈ q.sys_idx →
    ecs_stage_of (phases ++ [q]) i = some phases.length := by
  intro phases
  induction phases with
  | nil =>
      intro q i hn hm
      simp only [List.nil_append]
      unfold ecs_stage_of
      rw [if_pos (by simpa using hm)]
      rfl
  | cons q0 rest ih =>
      intro q i hn hm
      rw [List.cons_append]
      unfold ecs_stage_of at hn ⊢
      by_cases hq : q0.sys_idx.contains i = true
      · rw [if_pos hq] at hn
        simp at hn
      · rw [if_neg hq] at hn ⊢
        have hrec : ecs_stage_of rest i = none := by
          cases hr : ecs_stage_of rest i with
          | none => rfl
          | some k =>
              rw [hr] at hn
              simp at hn
        rw [ih q i hrec hm]
        rfl

theorem ecs_stage_of_none : ∀ (phases : List ecs_phase) (i : Nat),
    (∀ p ∈ phases, i ∉ p.sys_idx) → ecs_stage_of phases i = none := by
  intro phases
  induction phases with
  | nil =>
      intro i h
      rfl
  | cons q rest ih =>
      intro i h
      unfold ecs_stage_of
      rw [if_neg (by simpa using h q (List.mem_cons_self q rest)),
        ih i (fun p hp => h p (List.mem_cons_of_mem q hp))]
      rfl

theorem getD_mem {α : Type} (l : List α) (t : Nat) (d : α) (h : t < l.length) :
    l.getD t d ∈ l := by
  rw [List.getD_eq_getElem?_getD, List.getElem?_eq_getElem h]
  exact List.getElem_mem h

/-- Invariant carried by the phase-building loop once the first `m`
systems have been placed: every phase's unions match its members, members
are pairwise conflict-free registered indices below `m`, and each placed
system sits in the earliest phase all of whose earlier phases held a
conflicting lower-indexed system. -/
def BuildInv (systems : List ecs_system) (m : Nat) (phases : List ecs_phase) : Prop :=
  (∀ t, t < phases.length → PhaseInv systems (phases.getD t default)) ∧
  (∀ t, t < phases.length → ∀ a ∈ (phases.getD t default).sys_idx,
      ∀ b ∈ (phases.getD t default).sys_idx, a ≠ b →
      ¬ ecs_conflict (systems.getD a default) (systems.getD b default)) ∧
  (∀ t, t < phases.length → ∀ j ∈ (phases.getD t default).sys_idx, j < m) ∧
  (∀ j, j < m → ∃ k, ecs_stage_of phases j = some k ∧
      ∀ r, r < k → ∃ a ∈ (phases.getD r default).sys_idx, a < j ∧
        ecs_conflict (systems.getD a default) (systems.getD j default))

theorem BuildInv_step (systems : List ecs_system) (m : Nat) (phases : List ecs_phase)
    (hinv : BuildInv systems m phases) :
    BuildInv systems (m + 1) (ecs_build_step phases m (systems.getD m default)) := by
  obtain ⟨hA, hB, hC, hD⟩ := hinv
  have hmnot : ∀ t, t < phases.length → m ∉ (phases.getD t default).sys_idx :=
    fun t ht hc => Nat.lt_irrefl m (hC t ht m hc)
  unfold ecs_build_step
  cases hpl : ecs_place phases m (systems.getD m default) with
  | some out =>
      obtain ⟨k, hk, hacc, hbefore, hout⟩ :=
        ecs_place_some phases m (systems.getD m default) out hpl
      subst hout
      have hgk : (phases.set k (ecs_phase_add_system (phases.getD k default) m
          (systems.getD m default))).getD k default =
          ecs_phase_add_system (phases.getD k default) m (systems.getD m default) :=
        getD_set_self _ _ _ _ hk
      have hgt : ∀ t, t ≠ k → (phases.set k (ecs_phase_add_system
          (phases.getD k default) m (systems.getD m default))).getD t default =
          phases.getD t default :=
        fun t ht => getD_set_ne _ _ _ _ _ (fun hc => ht hc.symm)
      have hmemnew : ∀ j, j ∈ (ecs_phase_add_system (phases.getD k default) m
          (systems.getD m default)).sys_idx ↔
          (j ∈ (phases.getD k default).sys_idx ∨ j = m) := by
        intro j
        unfold ecs_phase_add_system
        simp
      refine ⟨?_, ?_, ?_, ?_⟩
      · intro t ht
        rw [List.length_set] at ht
        by_cases htk : t = k
        · subst htk
          rw [hgk]
          exact PhaseInv_add_system systems _ m (hA t ht)
        · rw [hgt t htk]
          exact hA t ht
      · intro t ht a ha b hb hab
        rw [List.length_set] at ht
        by_cases htk : t = k
        · subst htk
          rw [hgk] at ha hb
          rcases (hmemnew a).1 ha with hao | ham
          · rcases (hmemnew b).1 hb with hbo | hbm
            · exact hB t ht a hao b hbo hab
            · subst hbm
              exact can_accept_no_conflict systems _ _ (hA t ht) hacc a hao
          · subst ham
            rcases (hmemnew b).1 hb with hbo | hbm
            · rw [ecs_conflict_symm]
              exact can_accept_no_conflict systems _ _ (hA t ht) hacc b hbo
            · exact absurd hbm.symm hab
        · rw [hgt t htk] at ha hb
          exact hB t ht a ha b hb hab
      · intro t ht j hj
        rw [List.length_set] at ht
        by_cases htk : t = k
        · subst htk
          rw [hgk] at hj
          rcases (hmemnew j).1 hj with hjo | hjm
          · exact Nat.lt_succ_of_lt (hC t ht j hjo)
          · omega
        · rw [hgt t htk] at hj
          exact Nat.lt_succ_of_lt (hC t ht j hj)
      · intro j hjm1
        by_cases hjm : j = m
        · subst hjm
          refine ⟨k, ?_, ?_⟩
          · apply ecs_stage_of_first
            · rw [List.length_set]
              exact hk
            · rw [hgk]
              exact (hmemnew j).2 (Or.inr rfl)
            · intro r hr
              rw [hgt r (by omega)]
              exact hmnot r (by omega)
          · intro r hr
            rw [hgt r (by omega)]
            obtain ⟨a, ha, hconf⟩ := can_accept_false_conflict systems _ _
              (hA r (by omega)) (hbefore r hr)
            exact ⟨a, ha, hC r (by omega) a ha, hconf⟩
        · have hj : j < m := by omega
          obtain ⟨kj, hstage, hmin⟩ := hD j hj
          have hcongr : ecs_stage_of (phases.set k (ecs_phase_add_system
              (phases.getD k default) m (systems.getD m default))) j =
              ecs_stage_of phases j := by
            apply ecs_stage_of_congr
            · simp
            · intro t
              by_cases htk : t = k
              · subst htk
                rw [hgk]
                constructor
                · intro hc
                  rcases (hmemnew j).1 hc with h1 | h1
                  · exact h1
                  · exact absurd h1 hjm
                · intro hc
                  exact (hmemnew j).2 (Or.inl hc)
              · rw [hgt t htk]
          refine ⟨kj, by rw [hcongr]; exact hstage, ?_⟩
          intro r hr
          obtain ⟨a, ha, haj, hconf⟩ := hmin r hr
          by_cases hrk : r = k
          · subst hrk
            rw [hgk]
            exact ⟨a, (hmemnew a).2 (Or.inl ha), haj, hconf⟩
          · rw [hgt r hrk]
            exact ⟨a, ha, haj, hconf⟩
  | none =>
      have hrej := ecs_place_none phases m (systems.getD m default) hpl
      have hglt : ∀ t, t < phases.length →
          (phases ++ [ecs_phase_add_system
            { read_union := ∅, write_union := ∅, sys_idx := [] } m
            (systems.getD m default)]).getD t default = phases.getD t default :=
        fun t ht => getD_append_left _ _ _ _ ht
      have hglen : (phases ++ [ecs_phase_add_system
          { read_union := ∅, write_union := ∅, sys_idx := [] } m
          (systems.getD m default)]).getD phases.length default =
          ecs_phase_add_system
            { read_union := ∅, write_union := ∅, sys_idx := [] } m
            (systems.getD m default) := by
        rw [getD_append_right _ _ _ _ le_rfl, Nat.sub_self]
        rfl
      have hmemq : ∀ j, j ∈ (ecs_phase_add_system
          { read_union := ∅, write_union := ∅, sys_idx := [] } m
          (systems.getD m default)).sys_idx ↔ j = m := by
        intro j
        unfold ecs_phase_add_system
        simp
      refine ⟨?_, ?_, ?_, ?_⟩
      · intro t ht
        rw [List.length_append, List.length_singleton] at ht
        by_cases htl : t < phases.length
        · rw [hglt t htl]
          exact hA t htl
        · have hteq : t = phases.length := by omega
          subst hteq
          rw [hglen]
          exact PhaseInv_add_system systems _ m (PhaseInv_empty systems)
      · intro t ht a ha b hb hab
        rw [List.length_append, List.length_singleton] at ht
        by_cases htl : t < phases.length
        · rw [hglt t htl] at ha hb
          exact hB t htl a ha b hb hab
        · have hteq : t = phases.length := by omega
          subst hteq
          rw [hglen] at ha hb
          rw [(hmemq a).1 ha, (hmemq b).1 hb] at hab
          exact absurd rfl hab
      · intro t ht j hj
        rw [List.length_append, List.length_singleton] at ht
        by_cases htl : t < phases.length
        · rw [hglt t htl] at hj
          exact Nat.lt_succ_of_lt (hC t htl j hj)
        · have hteq : t = phases.length := by omega
          subst hteq
          rw [hglen] at hj
          rw [(hmemq j).1 hj]
          omega
      · intro j hjm1
        by_cases hjm : j = m
        · subst hjm
          refine ⟨phases.length, ?_, ?_⟩
          · apply ecs_stage_of_append_singleton
            · apply ecs_stage_of_none
              intro p hp
              obtain ⟨t, ht, hpt⟩ := List.mem_iff_getElem.1 hp
              have hpd : phases.getD t default = p := by
                rw [List.getD_eq_getElem?_getD, List.getElem?_eq_getElem ht, hpt]
                rfl
              rw [← hpd]
              exact hmnot t ht
            · exact (hmemq j).2 rfl
          · intro r hr
            rw [hglt r hr]
            obtain ⟨a, ha, hconf⟩ := can_accept_false_conflict systems _ _
              (hA r hr) (hrej (phases.getD r default) (getD_mem _ _ _ hr))
            exact ⟨a, ha, hC r hr a ha, hconf⟩
        · have hj : j < m := by omega
          obtain ⟨kj, hstage, hmin⟩ := hD j hj
          have hkj := (ecs_stage_of_mem phases j kj hstage).1
          refine ⟨kj, ecs_stage_of_append phases _ j kj hstage, ?_⟩
          intro r hr
          rw [hglt r (by omega)]
          exact hmin r hr

theorem BuildInv_base (systems : List ecs_system) : BuildInv systems 0 [] := by
  refine ⟨?_, ?_, ?_, ?_⟩
  · intro t ht
    simp at ht
  · intro t ht
    simp at ht
  · intro t ht
    simp at ht
  · intro j hj
    omega

theorem ecs_build_go_inv (systems : List ecs_system) :
    ∀ (rest : List ecs_system) (i : Nat) (phases : List ecs_phase),
      rest = systems.drop i → i ≤ systems.length →
      BuildInv systems i phases →
      BuildInv systems systems.length (ecs_build_go rest i phases) := by
  intro rest
  induction rest with
  | nil =>
      intro i phases hdrop hle hinv
      have hieq : i = systems.length := by
        by_contra hc
        have hne : systems.drop i ≠ [] := by
          intro hnil
          rw [List.drop_eq_nil_iff] at hnil
          omega
        exact hne hdrop.symm
      subst hieq
      exact hinv
  | cons s rest2 ih =>
      intro i phases hdrop hle hinv
      have hlt : i < systems.length := by
        by_contra hc
        rw [List.drop_eq_nil_of_le (by omega)] at hdrop
        simp at hdrop
      have h0 : systems[i]? = some s := by
        have hh := List.getElem?_drop systems i 0
        rw [Nat.add_zero] at hh
        rw [← hh, ← hdrop]
        simp
      have hs : systems.getD i default = s := by
        rw [List.getD_eq_getElem?_getD, h0]
        rfl
      have hdrop2 : rest2 = systems.drop (i + 1) := by
        rw [← List.drop_drop 1 i systems, ← hdrop]
        rfl
      show BuildInv systems systems.length
        (ecs_build_go rest2 (i + 1) (ecs_build_step phases i s))
      refine ih (i + 1) _ hdrop2 (by omega) ?_
      rw [← hs]
      exact BuildInv_step systems i phases hinv

theorem ecs_build_phases_inv (systems : List ecs_system) :
    BuildInv systems systems.length (ecs_build_phases systems) :=
  ecs_build_go_inv systems systems 0 [] (by simp) (by omega) (BuildInv_base systems)

/-- C2: any two distinct systems placed into the same stage by
`ecs_build_phases` do not conflict, for every sequence of system
registrations and read/write declarations. -/
theorem C2_same_stage_no_conflict (systems : List ecs_system) (i j k : Nat)
    (hi : ecs_stage_of (ecs_build_phases systems) i = some k)
    (hj : ecs_stage_of (ecs_build_phases systems) j = some k)
    (hne : i ≠ j) :
    ¬ ecs_conflict (systems.getD i default) (systems.getD j default) := by
  obtain ⟨hA, hB, hC, hD⟩ := ecs_build_phases_inv systems
  obtain ⟨hkl, him⟩ := ecs_stage_of_mem _ i k hi
  obtain ⟨-, hjm⟩ := ecs_stage_of_mem _ j k hj
  exact hB k hkl i him j hjm hne

theorem C2_same_stage_no_conflict_witness :
    (ecs_stage_of (ecs_build_phases
      [{ all_of := ∅, none_of := ∅, read := {0}, write := ∅, phase := 0,
         fn := fun _ => (0, []), enabled := true },
       { all_of := ∅, none_of := ∅, read := {0}, write := ∅, phase := 0,
         fn := fun _ => (0, []), enabled := true }]) 0 = some 0) ∧
    (ecs_stage_of (ecs_build_phases
      [{ all_of := ∅, none_of := ∅, read := {0}, write := ∅, phase := 0,
         fn := fun _ => (0, []), enabled := true },
       { all_of := ∅, none_of := ∅, read := {0}, write := ∅, phase := 0,
         fn := fun _ => (0, []), enabled := true }]) 1 = some 0) ∧
    ¬ ecs_conflict
      ([{ all_of := ∅, none_of := ∅, read := {0}, write := ∅, phase := 0,
          fn := fun _ => (0, []), enabled := true },
        { all_of := ∅, none_of := ∅, read := {0}, write := ∅, phase := 0,
          fn := fun _ => (0, []), enabled := true }].getD 0 default)
      ([{ all_of := ∅, none_of := ∅, read := {0}, write := ∅, phase := 0,
          fn := fun _ => (0, []), enabled := true },
        { all_of := ∅, none_of := ∅, read := {0}, write := ∅, phase := 0,
          fn := fun _ => (0, []), enabled := true }].getD 1 default) :=
  ⟨by decide, by decide,
   C2_same_stage_no_conflict _ 0 1 0 (by decide) (by decide) (by decide)⟩

/-- C1 (amended): the stage builder is greedy earliest-fit, not
longest-path leveling.  Each system `i` is placed into the lowest-indexed
stage none of whose members conflict with it: every earlier stage holds a
lower-indexed conflicting system, and no member of its own stage
conflicts with it.  The claimed `stage(i) = max(stage(p)) + 1` over
conflicting predecessors — equivalently `stage(p) < stage(i)` — does not
hold (see the counterexample). -/
theorem C1_greedy_earliest_stage (systems : List ecs_system) (i : Nat)
    (hi : i < systems.length) :
    ∃ k, ecs_stage_of (ecs_build_phases systems) i = some k ∧
      (∀ j ∈ ((ecs_build_phases systems).getD k default).sys_idx, j ≠ i →
        ¬ ecs_conflict (systems.getD j default) (systems.getD i default)) ∧
      (∀ r, r < k → ∃ a ∈ ((ecs_build_phases systems).getD r default).sys_idx,
        a < i ∧ ecs_conflict (systems.getD a default) (systems.getD i default)) := by
  obtain ⟨hA, hB, hC, hD⟩ := ecs_build_phases_inv systems
  obtain ⟨k, hstage, hmin⟩ := hD i hi
  obtain ⟨hkl, him⟩ := ecs_stage_of_mem _ i k hstage
  exact ⟨k, hstage, fun j hj hne => hB k hkl j hj i him hne, hmin⟩

theorem C1_greedy_earliest_stage_witness :
    (0 < ([{ all_of := ∅, none_of := ∅, read := ∅, write := {0}, phase := 0,
             fn := fun _ => (0, []), enabled := true }] : List ecs_system).length) ∧
    (∃ k, ecs_stage_of (ecs_build_phases
        [{ all_of := ∅, none_of := ∅, read := ∅, write := {0}, phase := 0,
           fn := fun _ => (0, []), enabled := true }]) 0 = some k ∧
      (∀ j ∈ ((ecs_build_phases
          [{ all_of := ∅, none_of := ∅, read := ∅, write := {0}, phase := 0,
             fn := fun _ => (0, []), enabled := true }]).getD k default).sys_idx,
        j ≠ 0 → ¬ ecs_conflict
          ([{ all_of := ∅, none_of := ∅, read := ∅, write := {0}, phase := 0,
              fn := fun _ => (0, []), enabled := true }].getD j default)
          ([{ all_of := ∅, none_of := ∅, read := ∅, write := {0}, phase := 0,
              fn := fun _ => (0, []), enabled := true }].getD 0 default)) ∧
      (∀ r, r < k → ∃ a ∈ ((ecs_build_phases
          [{ all_of := ∅, none_of := ∅, read := ∅, write := {0}, phase := 0,
             fn := fun _ => (0, []), enabled := true }]).getD r default).sys_idx,
        a < 0 ∧ ecs_conflict
          ([{ all_of := ∅, none_of := ∅, read := ∅, write := {0}, phase := 0,
              fn := fun _ => (0, []), enabled := true }].getD a default)
          ([{ all_of := ∅, none_of := ∅, read := ∅, write := {0}, phase := 0,
              fn := fun _ => (0, []), enabled := true }].getD 0 default))) :=
  ⟨by decide, C1_greedy_earliest_stage _ 0 (by decide)⟩

/-- C1 counterexample: with A = {write x}, B = {read x, write y},
C = {read y} registered in that order, B conflicts with C and precedes it
(1 < 2), yet the builder assigns stage(B) = 1 and stage(C) = 0: the
claimed `stage(i) = max(stage(p)) + 1` (which would give stage(C) = 2)
and `stage(p) < stage(i)` both fail. -/
theorem C1_not_longest_path_cex :
    ecs_conflict
      ([{ all_of := ∅, none_of := ∅, read := ∅, write := {0}, phase := 0,
          fn := fun _ => (0, []), enabled := true },
        { all_of := ∅, none_of := ∅, read := {0}, write := {1}, phase := 0,
          fn := fun _ => (0, []), enabled := true },
        { all_of := ∅, none_of := ∅, read := {1}, write := ∅, phase := 0,
          fn := fun _ => (0, []), enabled := true }].getD 1 default)
      ([{ all_of := ∅, none_of := ∅, read := ∅, write := {0}, phase := 0,
          fn := fun _ => (0, []), enabled := true },
        { all_of := ∅, none_of := ∅, read := {0}, write := {1}, phase := 0,
          fn := fun _ => (0, []), enabled := true },
        { all_of := ∅, none_of := ∅, read := {1}, write := ∅, phase := 0,
          fn := fun _ => (0, []), enabled := true }].getD 2 default) ∧
    ecs_stage_of (ecs_build_phases
      [{ all_of := ∅, none_of := ∅, read := ∅, write := {0}, phase := 0,
         fn := fun _ => (0, []), enabled := true },
       { all_of := ∅, none_of := ∅, read := {0}, write := {1}, phase := 0,
         fn := fun _ => (0, []), enabled := true },
       { all_of := ∅, none_of := ∅, read := {1}, write := ∅, phase := 0,
         fn := fun _ => (0, []), enabled := true }]) 1 = some 1 ∧
    ecs_stage_of (ecs_build_phases
      [{ all_of := ∅, none_of := ∅, read := ∅, write := {0}, phase := 0,
         fn := fun _ => (0, []), enabled := true },
       { all_of := ∅, none_of := ∅, read := {0}, write := {1}, phase := 0,
         fn := fun _ => (0, []), enabled := true },
       { all_of := ∅, none_of := ∅, read := {1}, write := ∅, phase := 0,
         fn := fun _ => (0, []), enabled := true }]) 2 = some 0 := by
  decide

/- ------------------------------ ECS state --------------------------------- -/

instance : Inhabited ecs_pool := ⟨ecs_pool_init 0⟩

/-- One recorded system-function invocation (instrumentation used to state
control-flow properties): which system ran on which lane, the view handed
to it, and the status it returned. -/
structure EcsCall where
  sys_index : Nat
  task_index : Nat
  view : List Nat
  status : Int
  deriving Repr, DecidableEq

/-- `ecs_t` (the fields the modelled operations touch).  `comp_count` is
`pools.length`; `cmd_buffers` has one entry per lane (`task_count` of
them — `ecs_current_cmd_buffer` clamps the lane index).  `enqueue_cb`
models the user enqueue callback as the status it returns for
`(sys_index, task_index)`; a task whose enqueue returns 0 is executed
before `wait_cb` returns, which the sequential model realises by running
it at enqueue time, discarding its status exactly as the worker loop
does.  `trace` and `enq_trace` are instrumentation recording the
system-function invocations and the observed enqueue statuses. -/
structure Ecs where
  pools : List ecs_pool
  systems : List ecs_system
  enqueue_cb : Option (Nat → Nat → Int)
  wait_cb : Bool
  task_count : Nat
  in_progress : Bool
  cmd_buffers : List (List ecs_cmd)
  free_list : List Nat
  next_entity : Nat
  trace : List EcsCall
  enq_trace : List Int

/-- `ecs_destroy`'s immediate path: remove the entity from every pool and
push it onto the free list. -/
def ecs_destroy_now (ecs : Ecs) (e : Nat) : Ecs :=
  { ecs with
    pools := ecs.pools.map (fun p => (ecs_pool_remove p e).1),
    free_list := e :: ecs.free_list }

/-- `ecs_cmd_enqueue` into lane `t` (`ecs_current_cmd_buffer` falls back
to lane 0 when the thread-local index is out of range). -/
def ecs_cmd_enqueue (ecs : Ecs) (t : Nat) (cmd : ecs_cmd) : Ecs :=
  let lane := if t < ecs.task_count then t else 0
  { ecs with
    cmd_buffers := ecs.cmd_buffers.set lane
      ((ecs.cmd_buffers.getD lane []) ++ [cmd]) }

/-- `ecs_destroy`: deferred while a tick is in progress (lane `t` is the
thread-local task index), immediate otherwise. -/
def ecs_destroy (ecs : Ecs) (t : Nat) (e : Nat) : Ecs :=
  if ecs.in_progress then ecs_cmd_enqueue ecs t (ecs_cmd.destroy e)
  else ecs_destroy_now ecs e

/-- `ecs_add`: while a tick is in progress, queue an ADD command carrying
zero-initialised staged bytes and hand that staging area to the caller;
otherwise `ecs_pool_add` immediately.  Returns the new state and the
bytes behind the returned pointer. -/
def ecs_add (ecs : Ecs) (t : Nat) (entity comp : Nat) : Ecs × EcsBytes :=
  if ecs.in_progress then
    let data : EcsBytes :=
      List.replicate ((ecs.pools.getD comp default).element_size) 0
    (ecs_cmd_enqueue ecs t (ecs_cmd.add entity comp data), data)
  else
    let pr := ecs_pool_add (ecs.pools.getD comp default) entity
    ({ ecs with pools := ecs.pools.set comp pr.1 }, pr.2)

/-- Apply one drained command (the switch of `ecs_sync`; `in_progress` is
false there, so DESTROY takes the immediate path). -/
def ecs_cmd_apply (ecs : Ecs) (cmd : ecs_cmd) : Ecs :=
  match cmd with
  | ecs_cmd.destroy e => ecs_destroy ecs 0 e
  | ecs_cmd.add e c data =>
      let p1 := (ecs_pool_add (ecs.pools.getD c default) e).1
      { ecs with pools := ecs.pools.set c (ecs_pool_write p1 e data) }
  | ecs_cmd.remove e c =>
      { ecs with pools :=
          ecs.pools.set c (ecs_pool_remove (ecs.pools.getD c default) e).1 }

/-- Drain one lane: apply its commands FIFO, then reset the buffer. -/
def ecs_sync_lane (ecs : Ecs) (t : Nat) : Ecs :=
  let ecs2 := (ecs.cmd_buffers.getD t []).foldl ecs_cmd_apply ecs
  { ecs2 with cmd_buffers := ecs2.cmd_buffers.set t [] }

/-- `ecs_sync`: drain lanes `0 .. task_count-1` in order. -/
def ecs_sync (ecs : Ecs) : Ecs :=
  (List.range ecs.task_count).foldl ecs_sync_lane ecs

/- -------------------------- Matching / execution -------------------------- -/

/-- `ecs_bs_any` on a component bitset. -/
def ecs_bs_any (bs : Finset Nat) : Bool := bs.Nonempty

/-- Ascending enumeration of a bitset's set bits: the C loops walk the
words upward and pop bits with `ctz`, so bits are visited in increasing
order. -/
def ecs_bs_bits (bs : Finset Nat) : List Nat :=
  (List.range (bs.sup id + 1)).filter (fun b => b ∈ bs)

theorem mem_ecs_bs_bits (bs : Finset Nat) (b : Nat) :
    b ∈ ecs_bs_bits bs ↔ b ∈ bs := by
  simp only [ecs_bs_bits, List.mem_filter, List.mem_range, decide_eq_true_eq]
  constructor
  · exact fun h => h.2
  · exact fun h => ⟨Nat.lt_succ_of_le (Finset.le_sup (f := id) h), h⟩

/-- One iteration of `ecs_pick_driver`'s loop body: an unregistered bit
is skipped, otherwise keep the pool with the strictly smaller count
(`best_n` starts at `INT_MAX`, so the first registered bit always wins,
modelled by the `none` accumulator case). -/
def ecs_pick_driver_step (pools : List ecs_pool) (best : Option Nat) (bit : Nat) :
    Option Nat :=
  if bit < pools.length then
    match best with
    | none => some bit
    | some b =>
        if (pools.getD bit default).set.dense.length <
            (pools.getD b default).set.dense.length then some bit else best
  else best

/-- `ecs_pick_driver`: among the `all_of` bits in ascending order, the
registered component with the smallest pool count; `none` models the
`(ecs_comp_t)-1` "no driver" result. -/
def ecs_pick_driver (pools : List ecs_pool) (all_of : Finset Nat) : Option Nat :=
  (ecs_bs_bits all_of).foldl (ecs_pick_driver_step pools) none

/-- `ecs_entity_has_all_of` (an unregistered required bit fails). -/
def ecs_entity_has_all_of (pools : List ecs_pool) (e : Nat)
    (all_of : Finset Nat) : Bool :=
  (ecs_bs_bits all_of).all
    (fun bit => decide (bit < pools.length) &&
      ecs_ss_has (pools.getD bit default).set e)

/-- `ecs_entity_has_any_of` (unregistered bits are skipped). -/
def ecs_entity_has_any_of (pools : List ecs_pool) (e : Nat)
    (any_of : Finset Nat) : Bool :=
  (ecs_bs_bits any_of).any
    (fun bit => decide (bit < pools.length) &&
      ecs_ss_has (pools.getD bit default).set e)

/-- The per-entity test of `ecs_run_system_task`'s collection loop:
`if (!has_all_of) continue; if (any_excluded && has_any_of) continue;`. -/
def ecs_task_match (ecs : Ecs) (s : ecs_system) (e : Nat) : Bool :=
  ecs_entity_has_all_of ecs.pools e s.all_of &&
  !(ecs_bs_any s.none_of && ecs_entity_has_any_of ecs.pools e s.none_of)

/-- The view `ecs_run_system_task` computes for one task: `none` when the
task returns before invoking the system function (no driver, empty
slice, or no matched entity). -/
def ecs_task_view (ecs : Ecs) (sys_index task_index : Nat) : Option (List Nat) :=
  let s := ecs.systems.getD sys_index default
  match ecs_pick_driver ecs.pools s.all_of with
  | none => none
  | some drive =>
      let dense := (ecs.pools.getD drive default).set.dense
      let n := dense.length
      if n = 0 then none
      else
        let start := (n * task_index) / ecs.task_count
        let stop := (n * (task_index + 1)) / ecs.task_count
        let matched := ((dense.drop start).take (stop - start)).filter
          (ecs_task_match ecs s)
        if matched.length = 0 then none else some matched

/-- `ecs_run_system_task`: compute the task's view; when it is non-empty,
invoke the system function, route its commands to the task's lane and
record the call. -/
def ecs_run_system_task (ecs : Ecs) (sys_index task_index : Nat) : Ecs × Int :=
  match ecs_task_view ecs sys_index task_index with
  | none => (ecs, 0)
  | some matched =>
      let s := ecs.systems.getD sys_index default
      let r := s.fn matched
      let ecs2 := r.2.foldl (fun acc c => ecs_cmd_enqueue acc task_index c) ecs
      ({ ecs2 with trace := ecs2.trace ++
          [{ sys_index := sys_index, task_index := task_index,
             view := matched, status := r.1 }] }, r.1)

/-- `mt = (ecs->enqueue_cb && ecs->wait_cb && ecs->task_count > 1)`. -/
def ecs_mt (ecs : Ecs) : Bool :=
  ecs.enqueue_cb.isSome && ecs.wait_cb && decide (1 < ecs.task_count)

/-- The multi-threaded dispatch loop for one system: enqueue one task per
lane, aborting on the first non-zero enqueue status; an accepted task
runs before `wait_cb` returns (sequentially modelled by running it at
enqueue time), its returned status discarded exactly as the worker loop
discards the result of `job.fn`. -/
def ecs_enqueue_tasks : Ecs → Nat → List Nat → Ecs × Int
  | ecs, _, [] => (ecs, 0)
  | ecs, sys_index, t :: ts =>
      let st := (ecs.enqueue_cb.getD (fun _ _ => 0)) sys_index t
      let ecs1 := { ecs with enq_trace := ecs.enq_trace ++ [st] }
      if st ≠ 0 then (ecs1, st)
      else ecs_enqueue_tasks (ecs_run_system_task ecs1 sys_index t).1 sys_index ts

/-- `ecs_run_system`: run one system (single task, or one task per lane),
then drop `in_progress` and drain the command buffers; a failing enqueue
short-circuits straight to the drain. -/
def ecs_run_system (ecs0 : Ecs) (sys : Nat) : Ecs × Int :=
  if !(ecs0.systems.getD sys default).enabled then (ecs0, 0)
  else
    let ecs := { ecs0 with in_progress := true }
    let r :=
      if !(ecs_mt ecs) then ecs_run_system_task ecs sys 0
      else ecs_enqueue_tasks ecs sys (List.range ecs.task_count)
    (ecs_sync { r.1 with in_progress := false }, r.2)

/-- The group filter of `ecs_progress`:
`(phase_mask == 0) ? (s.phase == 0) : (s.phase & phase_mask)`. -/
def ecs_group_matches (s : ecs_system) (phase_mask : Nat) : Bool :=
  if phase_mask = 0 then s.phase == 0 else (Nat.land s.phase phase_mask) != 0

/-- One stage of `ecs_progress`: dispatch each member that is enabled and
matches the group mask; a non-zero status aborts (`goto done`). -/
def ecs_progress_phase : Ecs → Nat → List Nat → Ecs × Int
  | ecs, _, [] => (ecs, 0)
  | ecs, phase_mask, sys_index :: rest =>
      let s := ecs.systems.getD sys_index default
      if !s.enabled then ecs_progress_phase ecs phase_mask rest
      else if !(ecs_group_matches s phase_mask) then
        ecs_progress_phase ecs phase_mask rest
      else
        let r := if !(ecs_mt ecs) then ecs_run_system_task ecs sys_index 0
                 else ecs_enqueue_tasks ecs sys_index (List.range ecs.task_count)
        if r.2 ≠ 0 then (r.1, r.2)
        else ecs_progress_phase r.1 phase_mask rest

/-- The stage loop of `ecs_progress` with the inter-stage drain; an abort
inside a stage skips that stage's drain (`goto done`). -/
def ecs_progress_loop : Ecs → Nat → List ecs_phase → Ecs × Int
  | ecs, _, [] => (ecs, 0)
  | ecs, phase_mask, ph :: rest =>
      let r := ecs_progress_phase ecs phase_mask ph.sys_idx
      if r.2 ≠ 0 then (r.1, r.2)
      else
        let e2 := ecs_sync { r.1 with in_progress := false }
        ecs_progress_loop { e2 with in_progress := true } phase_mask rest

/-- `ecs_progress`: build the stages, run them in order under the group
mask, and always finish with the final drain. -/
def ecs_progress (ecs0 : Ecs) (phase_mask : Nat) : Ecs × Int :=
  let ecs := { ecs0 with in_progress := true }
  let r := ecs_progress_loop ecs phase_mask (ecs_build_phases ecs.systems)
  (ecs_sync { r.1 with in_progress := false }, r.2)

theorem set_getD_self {α : Type} (l : List α) (i : Nat) (d : α) :
    l.set i (l.getD i d) = l := by
  induction l generalizing i with
  | nil => rfl
  | cons a l ih =>
      cases i with
      | zero => rfl
      | succ n =>
          show a :: l.set n (l.getD n d) = a :: l
          rw [ih n]

/-- C10: calling `ecs_add` outside a tick for an entity that already has
the component returns the existing payload and leaves the ECS state
entirely unchanged — the stored bytes are not re-zeroed and every pool's
membership, dense order and count are as before (`ecs_pool_add` likewise
returns the pool unchanged). -/
theorem C10_add_existing_is_noop (ecs : Ecs) (t entity comp : Nat)
    (hnp : ecs.in_progress = false)
    (hhas : ecs_ss_has (ecs.pools.getD comp default).set entity = true) :
    (ecs_add ecs t entity comp).1 = ecs ∧
    (ecs_add ecs t entity comp).2 =
      (ecs.pools.getD comp default).data.getD
        ((ecs.pools.getD comp default).set.sparse.getD entity 0 - 1) [] ∧
    ecs_pool_add (ecs.pools.getD comp default) entity =
      ((ecs.pools.getD comp default),
       (ecs.pools.getD comp default).data.getD
        ((ecs.pools.getD comp default).set.sparse.getD entity 0 - 1) []) := by
  have hp := ecs_pool_add_present (ecs.pools.getD comp default) entity hhas
  have h1 : ecs_add ecs t entity comp =
      ({ ecs with pools := ecs.pools.set comp (ecs.pools.getD comp default) },
       (ecs.pools.getD comp default).data.getD
        ((ecs.pools.getD comp default).set.sparse.getD entity 0 - 1) []) := by
    simp only [ecs_add, hnp, Bool.false_eq_true, if_false, hp]
  rw [h1, set_getD_self]
  exact ⟨rfl, rfl, hp⟩

/-- Concrete state for exercising C10: one component pool holding
entity 1 with payload bytes `[5]`. -/
def ecsForAddNoop : Ecs :=
  { pools := [{ set := { sparse := [0, 1], dense := [1] },
                data := [[5]], element_size := 1 }],
    systems := [], enqueue_cb := none, wait_cb := false, task_count := 1,
    in_progress := false, cmd_buffers := [[]], free_list := [],
    next_entity := 2, trace := [], enq_trace := [] }

theorem C10_add_existing_is_noop_witness :
    (ecsForAddNoop.in_progress = false) ∧
    (ecs_ss_has (ecsForAddNoop.pools.getD 0 default).set 1 = true) ∧
    ((ecs_add ecsForAddNoop 0 1 0).1 = ecsForAddNoop ∧
     (ecs_add ecsForAddNoop 0 1 0).2 =
       (ecsForAddNoop.pools.getD 0 default).data.getD
         ((ecsForAddNoop.pools.getD 0 default).set.sparse.getD 1 0 - 1) [] ∧
     ecs_pool_add (ecsForAddNoop.pools.getD 0 default) 1 =
       ((ecsForAddNoop.pools.getD 0 default),
        (ecsForAddNoop.pools.getD 0 default).data.getD
          ((ecsForAddNoop.pools.getD 0 default).set.sparse.getD 1 0 - 1) [])) :=
  ⟨rfl, by decide, C10_add_existing_is_noop ecsForAddNoop 0 1 0 rfl (by decide)⟩

theorem ecs_ss_has_mem_dense (s : ecs_sparse_set) (hwf : ecs_ss_wf s) (e : Nat) :
    ecs_ss_has s e = true ↔ e ∈ s.dense := by
  rw [ecs_ss_has_iff]
  constructor
  · intro h
    obtain ⟨hle, hget⟩ := hwf.2 e h
    rw [← hget]
    exact getD_mem _ _ _ (by omega)
  · intro h
    obtain ⟨i, hi, hie⟩ := List.mem_iff_getElem.1 h
    have hval := hwf.1 i hi
    have hde : s.dense.getD i 0 = e := by
      rw [List.getD_eq_getElem?_getD, List.getElem?_eq_getElem hi, hie]
      rfl
    rw [hde] at hval
    omega

theorem pick_step_hit (pools : List ecs_pool) (bit : Nat) (hb : bit < pools.length) :
    ecs_pick_driver_step pools none bit = some bit := by
  unfold ecs_pick_driver_step
  rw [if_pos hb]

theorem pick_step_skip (pools : List ecs_pool) (acc : Option Nat) (bit : Nat)
    (hb : ¬ bit < pools.length) : ecs_pick_driver_step pools acc bit = acc := by
  unfold ecs_pick_driver_step
  rw [if_neg hb]

theorem pick_step_keep (pools : List ecs_pool) (b bit : Nat)
    (hb : bit < pools.length) :
    ecs_pick_driver_step pools (some b) bit = some bit ∨
    ecs_pick_driver_step pools (some b) bit = some b := by
  unfold ecs_pick_driver_step
  rw [if_pos hb]
  show ((if (pools.getD bit default).set.dense.length <
      (pools.getD b default).set.dense.length then some bit else some b) = some bit) ∨
    ((if (pools.getD bit default).set.dense.length <
      (pools.getD b default).set.dense.length then some bit else some b) = some b)
  split
  · exact Or.inl rfl
  · exact Or.inr rfl

theorem pick_fold_none (pools : List ecs_pool) : ∀ (l : List Nat),
    (l.foldl (ecs_pick_driver_step pools) none = none ↔
      ∀ b ∈ l, ¬ b < pools.length) := by
  have hsome : ∀ (l2 : List Nat) (x : Nat),
      l2.foldl (ecs_pick_driver_step pools) (some x) ≠ none := by
    intro l2
    induction l2 with
    | nil =>
        intro x h2
        simp at h2
    | cons b2 l2 ih2 =>
        intro x h2
        rw [List.foldl_cons] at h2
        by_cases hb2 : b2 < pools.length
        · rcases pick_step_keep pools x b2 hb2 with hs | hs
          · rw [hs] at h2
            exact ih2 _ h2
          · rw [hs] at h2
            exact ih2 _ h2
        · rw [pick_step_skip pools (some x) b2 hb2] at h2
          exact ih2 _ h2
  intro l
  induction l with
  | nil => simp
  | cons bit l ih =>
      by_cases hb : bit < pools.length
      · constructor
        · intro h
          exfalso
          rw [List.foldl_cons, pick_step_hit pools bit hb] at h
          exact hsome l bit h
        · intro h
          exact absurd hb (h bit (List.mem_cons_self bit l))
      · rw [List.foldl_cons, pick_step_skip pools none bit hb, ih]
        constructor
        · intro h b hbmem
          rcases List.mem_cons.1 hbmem with hbeq | hbm
          · subst hbeq
            exact hb
          · exact h b hbm
        · intro h b hbm
          exact h b (List.mem_cons_of_mem bit hbm)

theorem pick_fold_some (pools : List ecs_pool) : ∀ (l : List Nat)
    (acc : Option Nat) (d : Nat),
    l.foldl (ecs_pick_driver_step pools) acc = some d →
    (d ∈ l ∧ d < pools.length) ∨ acc = some d := by
  intro l
  induction l with
  | nil =>
      intro acc d h
      right
      simpa using h
  | cons bit l ih =>
      intro acc d h
      rw [List.foldl_cons] at h
      rcases ih (ecs_pick_driver_step pools acc bit) d h with hin | hacc
      · exact Or.inl ⟨List.mem_cons_of_mem bit hin.1, hin.2⟩
      · by_cases hb : bit < pools.length
        · cases acc with
          | none =>
              rw [pick_step_hit pools bit hb] at hacc
              simp only [Option.some.injEq] at hacc
              exact Or.inl ⟨by rw [← hacc]; exact List.mem_cons_self bit l, by omega⟩
          | some b =>
              rcases pick_step_keep pools b bit hb with hs | hs
              · rw [hs] at hacc
                simp only [Option.some.injEq] at hacc
                exact Or.inl ⟨by rw [← hacc]; exact List.mem_cons_self bit l, by omega⟩
              · rw [hs] at hacc
                exact Or.inr hacc
        · rw [pick_step_skip pools acc bit hb] at hacc
          exact Or.inr hacc

theorem ecs_pick_driver_none_iff (pools : List ecs_pool) (all_of : Finset Nat) :
    ecs_pick_driver pools all_of = none ↔ ∀ b ∈ all_of, ¬ b < pools.length := by
  unfold ecs_pick_driver
  rw [pick_fold_none]
  constructor
  · intro h b hb
    exact h b ((mem_ecs_bs_bits _ _).2 hb)
  · intro h b hb
    exact h b ((mem_ecs_bs_bits _ _).1 hb)

theorem ecs_pick_driver_some (pools : List ecs_pool) (all_of : Finset Nat)
    (d : Nat) (h : ecs_pick_driver pools all_of = some d) :
    d ∈ all_of ∧ d < pools.length := by
  unfold ecs_pick_driver at h
  rcases pick_fold_some pools _ none d h with hin | hacc
  · exact ⟨(mem_ecs_bs_bits _ _).1 hin.1, hin.2⟩
  · simp at hacc

theorem ecs_entity_has_all_of_iff (pools : List ecs_pool) (e : Nat)
    (all_of : Finset Nat) :
    ecs_entity_has_all_of pools e all_of = true ↔
      ∀ c ∈ all_of, c < pools.length ∧
        ecs_ss_has (pools.getD c default).set e = true := by
  unfold ecs_entity_has_all_of
  rw [List.all_eq_true]
  constructor
  · intro h c hc
    have hh := h c ((mem_ecs_bs_bits _ _).2 hc)
    rw [Bool.and_eq_true] at hh
    exact ⟨of_decide_eq_true hh.1, hh.2⟩
  · intro h bit hbit
    have hh := h bit ((mem_ecs_bs_bits _ _).1 hbit)
    rw [Bool.and_eq_true]
    exact ⟨decide_eq_true hh.1, hh.2⟩

theorem ecs_entity_has_any_of_iff (pools : List ecs_pool) (e : Nat)
    (any_of : Finset Nat) :
    ecs_entity_has_any_of pools e any_of = true ↔
      ∃ c ∈ any_of, c < pools.length ∧
        ecs_ss_has (pools.getD c default).set e = true := by
  unfold ecs_entity_has_any_of
  rw [List.any_eq_true]
  constructor
  · intro h
    obtain ⟨bit, hbit, hh⟩ := h
    rw [Bool.and_eq_true] at hh
    exact ⟨bit, (mem_ecs_bs_bits _ _).1 hbit, of_decide_eq_true hh.1, hh.2⟩
  · intro h
    obtain ⟨c, hc, hh⟩ := h
    refine ⟨c, (mem_ecs_bs_bits _ _).2 hc, ?_⟩
    rw [Bool.and_eq_true]
    exact ⟨decide_eq_true hh.1, hh.2⟩

/-- The spec's matching predicate: the entity's component set contains
every `all_of` component and intersects none of `none_of` (a component
beyond the registered count is possessed by no entity). -/
def ecs_entity_matches (pools : List ecs_pool) (e : Nat) (s : ecs_system) : Prop :=
  (∀ c ∈ s.all_of, c < pools.length ∧
    ecs_ss_has (pools.getD c default).set e = true) ∧
  (∀ c ∈ s.none_of, c < pools.length →
    ecs_ss_has (pools.getD c default).set e = false)

theorem ecs_task_match_iff (ecs : Ecs) (sys_index ent d : Nat)
    (hwf : ∀ p ∈ ecs.pools, ecs_ss_wf p.set)
    (hd : ecs_pick_driver ecs.pools
      (ecs.systems.getD sys_index default).all_of = some d) :
    (ent ∈ ((ecs.pools.getD d default).set.dense).filter
        (ecs_task_match ecs (ecs.systems.getD sys_index default)) ↔
      ((ecs.systems.getD sys_index default).all_of.Nonempty ∧
       ecs_entity_matches ecs.pools ent (ecs.systems.getD sys_index default))) := by
  obtain ⟨hdmem, hdlt⟩ := ecs_pick_driver_some _ _ d hd
  have hwfd := hwf _ (getD_mem ecs.pools d default hdlt)
  rw [List.mem_filter]
  constructor
  · intro hh
    obtain ⟨hmem, hpred⟩ := hh
    unfold ecs_task_match at hpred
    rw [Bool.and_eq_true] at hpred
    have hall := (ecs_entity_has_all_of_iff _ _ _).1 hpred.1
    refine ⟨⟨d, hdmem⟩, hall, ?_⟩
    intro c hc hclen
    by_contra hchas
    have hchas2 : ecs_ss_has (ecs.pools.getD c default).set ent = true := by
      cases hb : ecs_ss_has (ecs.pools.getD c default).set ent with
      | true => rfl
      | false => exact absurd hb hchas
    have hany : ecs_entity_has_any_of ecs.pools ent
        (ecs.systems.getD sys_index default).none_of = true :=
      (ecs_entity_has_any_of_iff _ _ _).2 ⟨c, hc, hclen, hchas2⟩
    have hbs : ecs_bs_any (ecs.systems.getD sys_index default).none_of = true :=
      decide_eq_true ⟨c, hc⟩
    have hpred2 := hpred.2
    rw [hbs, hany] at hpred2
    simp at hpred2
  · intro hh
    obtain ⟨hne, hmatch⟩ := hh
    have hhas_d := (hmatch.1 d hdmem).2
    refine ⟨(ecs_ss_has_mem_dense _ hwfd ent).1 hhas_d, ?_⟩
    unfold ecs_task_match
    rw [Bool.and_eq_true]
    refine ⟨(ecs_entity_has_all_of_iff _ _ _).2 hmatch.1, ?_⟩
    cases hbs : ecs_bs_any (ecs.systems.getD sys_index default).none_of with
    | false => rfl
    | true =>
        cases hany : ecs_entity_has_any_of ecs.pools ent
            (ecs.systems.getD sys_index default).none_of with
        | false => rfl
        | true =>
            exfalso
            obtain ⟨c, hc, hclen, hchas⟩ :=
              (ecs_entity_has_any_of_iff _ _ _).1 hany
            rw [hmatch.2 c hc hclen] at hchas
            exact absurd hchas (by simp)

/-- C3 (amended): in a single-lane run, an entity is included in the view
handed to the system function iff the system's `all_of` set is non-empty
and the entity matches it (`bits(e) ⊇ all_of ∧ bits(e) ∩ none_of = ∅`);
when `all_of` is empty no driver pool exists, the task returns before
invoking the system function, and no entity is passed to it. -/
theorem C3_view_is_matching (ecs : Ecs) (sys_index ent : Nat)
    (hwf : ∀ p ∈ ecs.pools, ecs_ss_wf p.set)
    (htc : ecs.task_count = 1) :
    ((∃ v, ecs_task_view ecs sys_index 0 = some v ∧ ent ∈ v) ↔
      ((ecs.systems.getD sys_index default).all_of.Nonempty ∧
        ecs_entity_matches ecs.pools ent (ecs.systems.getD sys_index default))) ∧
    ((ecs.systems.getD sys_index default).all_of = ∅ →
      ecs_run_system_task ecs sys_index 0 = (ecs, 0)) := by
  constructor
  · cases hd : ecs_pick_driver ecs.pools
        (ecs.systems.getD sys_index default).all_of with
    | none =>
        have hview : ecs_task_view ecs sys_index 0 = none := by
          simp only [ecs_task_view, hd]
        constructor
        · intro hh
          obtain ⟨v, hv, -⟩ := hh
          rw [hview] at hv
          exact absurd hv (by simp)
        · intro hh
          obtain ⟨hne, hmatch⟩ := hh
          obtain ⟨c, hc⟩ := hne
          exact absurd (hmatch.1 c hc).1 ((ecs_pick_driver_none_iff _ _).1 hd c hc)
    | some d =>
        have hslice : (((ecs.pools.getD d default).set.dense.drop
            (((ecs.pools.getD d default).set.dense.length * 0) / ecs.task_count)).take
            ((((ecs.pools.getD d default).set.dense.length * (0 + 1)) /
                ecs.task_count) -
             (((ecs.pools.getD d default).set.dense.length * 0) /
                ecs.task_count))) =
            (ecs.pools.getD d default).set.dense := by
          rw [htc]
          simp
        have hview : ecs_task_view ecs sys_index 0 =
            (if (ecs.pools.getD d default).set.dense.length = 0 then none
             else if (((ecs.pools.getD d default).set.dense).filter
                 (ecs_task_match ecs (ecs.systems.getD sys_index default))).length = 0
               then none
               else some (((ecs.pools.getD d default).set.dense).filter
                 (ecs_task_match ecs (ecs.systems.getD sys_index default)))) := by
          simp only [ecs_task_view, hd, hslice]
        have hcore := ecs_task_match_iff ecs sys_index ent d hwf hd
        rw [hview]
        by_cases hn : (ecs.pools.getD d default).set.dense.length = 0
        · rw [if_pos hn]
          constructor
          · intro hh
            obtain ⟨v, hv, -⟩ := hh
            exact absurd hv (by simp)
          · intro hh
            exfalso
            obtain ⟨hdmem, hdlt⟩ := ecs_pick_driver_some _ _ d hd
            have hwfd := hwf _ (getD_mem ecs.pools d default hdlt)
            have hmem := (ecs_ss_has_mem_dense _ hwfd ent).1 (hh.2.1 d hdmem).2
            rw [List.length_eq_zero.1 hn] at hmem
            exact absurd hmem (by simp)
        · rw [if_neg hn]
          by_cases hm : (((ecs.pools.getD d default).set.dense).filter
              (ecs_task_match ecs (ecs.systems.getD sys_index default))).length = 0
          · rw [if_pos hm]
            constructor
            · intro hh
              obtain ⟨v, hv, -⟩ := hh
              exact absurd hv (by simp)
            · intro hh
              exact absurd (List.length_eq_zero.1 hm)
                (List.ne_nil_of_mem (hcore.2 hh))
          · rw [if_neg hm]
            constructor
            · intro hh
              obtain ⟨v, hv, hent⟩ := hh
              simp only [Option.some.injEq] at hv
              rw [← hv] at hent
              exact hcore.1 hent
            · intro hh
              exact ⟨_, rfl, hcore.2 hh⟩
  · intro hempty
    have hd : ecs_pick_driver ecs.pools
        (ecs.systems.getD sys_index default).all_of = none := by
      rw [ecs_pick_driver_none_iff]
      intro b hb
      rw [hempty] at hb
      exact absurd hb (by simp)
    have hview : ecs_task_view ecs sys_index 0 = none := by
      simp only [ecs_task_view, hd]
    simp only [ecs_run_system_task, hview]

/-- Concrete state: one pool holding entity 1, one system requiring
component 0. -/
def ecsC3 : Ecs :=
  { pools := [{ set := { sparse := [0, 1], dense := [1] },
                data := [[7]], element_size := 1 }],
    systems := [{ all_of := {0}, none_of := ∅, read := {0}, write := ∅,
                  phase := 0, fn := fun _ => (0, []), enabled := true }],
    enqueue_cb := none, wait_cb := false, task_count := 1,
    in_progress := false, cmd_buffers := [[]], free_list := [],
    next_entity := 2, trace := [], enq_trace := [] }

theorem ecsC3_pools_wf : ∀ p ∈ ecsC3.pools, ecs_ss_wf p.set := by
  intro p hp
  rw [List.mem_singleton.1 hp]
  constructor
  · intro i hi
    have hi0 : i = 0 := by
      simpa using hi
    subst hi0
    decide
  · intro e he
    rcases e with _ | e1
    · exact absurd rfl he
    · rcases e1 with _ | e2
      · exact ⟨by decide, by decide⟩
      · exact absurd (getD_of_length_le _ _ _ (by simp)) he

theorem C3_view_is_matching_witness :
    (∀ p ∈ ecsC3.pools, ecs_ss_wf p.set) ∧ ecsC3.task_count = 1 ∧
    (((∃ v, ecs_task_view ecsC3 0 0 = some v ∧ 1 ∈ v) ↔
      ((ecsC3.systems.getD 0 default).all_of.Nonempty ∧
        ecs_entity_matches ecsC3.pools 1 (ecsC3.systems.getD 0 default))) ∧
     ((ecsC3.systems.getD 0 default).all_of = ∅ →
      ecs_run_system_task ecsC3 0 0 = (ecsC3, 0))) :=
  ⟨ecsC3_pools_wf, rfl, C3_view_is_matching ecsC3 0 1 ecsC3_pools_wf rfl⟩

/-- Concrete state: one pool holding entity 1, one enabled system whose
`all_of` is empty. -/
def ecsC3empty : Ecs :=
  { pools := [{ set := { sparse := [0, 1], dense := [1] },
                data := [[7]], element_size := 1 }],
    systems := [{ all_of := ∅, none_of := ∅, read := ∅, write := ∅,
                  phase := 0, fn := fun _ => (0, []), enabled := true }],
    enqueue_cb := none, wait_cb := false, task_count := 1,
    in_progress := false, cmd_buffers := [[]], free_list := [],
    next_entity := 2, trace := [], enq_trace := [] }

/-- C3 counterexample: a system with empty `all_of`, while entity 1
exists — the claim says every entity is then passed to the system
function, but the code finds no driver pool, computes no view, and never
invokes the function (the trace of a full `ecs_run_system` stays empty). -/
theorem C3_empty_all_of_cex :
    (ecsC3empty.systems.getD 0 default).all_of = ∅ ∧
    (ecsC3empty.systems.getD 0 default).enabled = true ∧
    ecs_ss_has ((ecsC3empty.pools.getD 0 default)).set 1 = true ∧
    ecs_task_view ecsC3empty 0 0 = none ∧
    (ecs_run_system ecsC3empty 0).1.trace = [] := by
  refine ⟨by decide, by decide, by decide, by decide, by decide⟩

/- ----------------------- Frame and trace lemmas --------------------------- -/

/-- The dispatch-relevant configuration no modelled operation changes: the
system table, the callback configuration, the lane count, and the number
of command buffers. -/
def EcsFrame (a b : Ecs) : Prop :=
  b.systems = a.systems ∧ b.enqueue_cb = a.enqueue_cb ∧ b.wait_cb = a.wait_cb ∧
  b.task_count = a.task_count ∧ b.cmd_buffers.length = a.cmd_buffers.length

theorem ecsFrame_refl (a : Ecs) : EcsFrame a a := ⟨rfl, rfl, rfl, rfl, rfl⟩

theorem ecsFrame_trans {a b c : Ecs} (h1 : EcsFrame a b) (h2 : EcsFrame b c) :
    EcsFrame a c :=
  ⟨h2.1.trans h1.1, h2.2.1.trans h1.2.1, h2.2.2.1.trans h1.2.2.1,
   h2.2.2.2.1.trans h1.2.2.2.1, h2.2.2.2.2.trans h1.2.2.2.2⟩

theorem ecs_mt_frame {a b : Ecs} (h : EcsFrame a b) : ecs_mt b = ecs_mt a := by
  unfold ecs_mt
  rw [h.2.1, h.2.2.1, h.2.2.2.1]

theorem ecs_cmd_enqueue_frame (ecs : Ecs) (t : Nat) (c : ecs_cmd) :
    EcsFrame ecs (ecs_cmd_enqueue ecs t c) ∧
    (ecs_cmd_enqueue ecs t c).trace = ecs.trace ∧
    (ecs_cmd_enqueue ecs t c).enq_trace = ecs.enq_trace ∧
    (ecs_cmd_enqueue ecs t c).in_progress = ecs.in_progress := by
  refine ⟨⟨rfl, rfl, rfl, rfl, ?_⟩, rfl, rfl, rfl⟩
  simp [ecs_cmd_enqueue]

theorem ecs_cmd_apply_frame (ecs : Ecs) (c : ecs_cmd) :
    EcsFrame ecs (ecs_cmd_apply ecs c) ∧
    (ecs_cmd_apply ecs c).trace = ecs.trace ∧
    (ecs_cmd_apply ecs c).enq_trace = ecs.enq_trace ∧
    (ecs_cmd_apply ecs c).in_progress = ecs.in_progress := by
  cases c with
  | destroy e =>
      have heq : ecs_cmd_apply ecs (ecs_cmd.destroy e) = ecs_destroy ecs 0 e :=
        rfl
      rw [heq]
      unfold ecs_destroy
      by_cases hip : ecs.in_progress = true
      · rw [if_pos hip]
        exact ecs_cmd_enqueue_frame ecs 0 (ecs_cmd.destroy e)
      · rw [if_neg hip]
        exact ⟨⟨rfl, rfl, rfl, rfl, rfl⟩, rfl, rfl, rfl⟩
  | add e comp data => exact ⟨⟨rfl, rfl, rfl, rfl, rfl⟩, rfl, rfl, rfl⟩
  | remove e comp => exact ⟨⟨rfl, rfl, rfl, rfl, rfl⟩, rfl, rfl, rfl⟩

theorem ecs_cmd_apply_buffers (ecs : Ecs) (c : ecs_cmd)
    (hip : ecs.in_progress = false) :
    (ecs_cmd_apply ecs c).cmd_buffers = ecs.cmd_buffers := by
  cases c with
  | destroy e =>
      show (ecs_destroy ecs 0 e).cmd_buffers = _
      unfold ecs_destroy
      rw [hip, if_neg (by simp)]
      rfl
  | add e comp data => rfl
  | remove e comp => rfl

theorem ecs_cmd_apply_fold_frame (cmds : List ecs_cmd) (ecs : Ecs) :
    EcsFrame ecs (cmds.foldl ecs_cmd_apply ecs) ∧
    (cmds.foldl ecs_cmd_apply ecs).trace = ecs.trace ∧
    (cmds.foldl ecs_cmd_apply ecs).enq_trace = ecs.enq_trace ∧
    (cmds.foldl ecs_cmd_apply ecs).in_progress = ecs.in_progress := by
  induction cmds generalizing ecs with
  | nil => exact ⟨ecsFrame_refl ecs, rfl, rfl, rfl⟩
  | cons c cs ih =>
      simp only [List.foldl_cons]
      obtain ⟨hf1, ht1, he1, hi1⟩ := ecs_cmd_apply_frame ecs c
      obtain ⟨hf2, ht2, he2, hi2⟩ := ih (ecs_cmd_apply ecs c)
      exact ⟨ecsFrame_trans hf1 hf2, ht2.trans ht1, he2.trans he1, hi2.trans hi1⟩

theorem ecs_cmd_apply_fold_buffers (cmds : List ecs_cmd) (ecs : Ecs)
    (hip : ecs.in_progress = false) :
    (cmds.foldl ecs_cmd_apply ecs).cmd_buffers = ecs.cmd_buffers := by
  induction cmds generalizing ecs with
  | nil => rfl
  | cons c cs ih =>
      simp only [List.foldl_cons]
      have hi1 := (ecs_cmd_apply_frame ecs c).2.2.2
      rw [ih (ecs_cmd_apply ecs c) (hi1.trans hip), ecs_cmd_apply_buffers ecs c hip]

theorem ecs_sync_lane_frame (ecs : Ecs) (t : Nat) :
    EcsFrame ecs (ecs_sync_lane ecs t) ∧
    (ecs_sync_lane ecs t).trace = ecs.trace ∧
    (ecs_sync_lane ecs t).enq_trace = ecs.enq_trace ∧
    (ecs_sync_lane ecs t).in_progress = ecs.in_progress := by
  obtain ⟨hf, ht, he, hi⟩ :=
    ecs_cmd_apply_fold_frame (ecs.cmd_buffers.getD t []) ecs
  refine ⟨⟨hf.1, hf.2.1, hf.2.2.1, hf.2.2.2.1, ?_⟩, ht, he, hi⟩
  show ((((ecs.cmd_buffers.getD t []).foldl ecs_cmd_apply
      ecs).cmd_buffers).set t []).length = _
  rw [List.length_set]
  exact hf.2.2.2.2

theorem ecs_sync_lane_buffers (ecs : Ecs) (t : Nat)
    (hip : ecs.in_progress = false) :
    (ecs_sync_lane ecs t).cmd_buffers = ecs.cmd_buffers.set t [] := by
  show ((((ecs.cmd_buffers.getD t []).foldl ecs_cmd_apply
      ecs).cmd_buffers).set t []) = _
  rw [ecs_cmd_apply_fold_buffers _ ecs hip]

theorem ecs_sync_go_frame (lanes : List Nat) (ecs : Ecs) :
    EcsFrame ecs (lanes.foldl ecs_sync_lane ecs) ∧
    (lanes.foldl ecs_sync_lane ecs).trace = ecs.trace ∧
    (lanes.foldl ecs_sync_lane ecs).enq_trace = ecs.enq_trace ∧
    (lanes.foldl ecs_sync_lane ecs).in_progress = ecs.in_progress := by
  induction lanes generalizing ecs with
  | nil => exact ⟨ecsFrame_refl ecs, rfl, rfl, rfl⟩
  | cons t ts ih =>
      simp only [List.foldl_cons]
      obtain ⟨hf1, ht1, he1, hi1⟩ := ecs_sync_lane_frame ecs t
      obtain ⟨hf2, ht2, he2, hi2⟩ := ih (ecs_sync_lane ecs t)
      exact ⟨ecsFrame_trans hf1 hf2, ht2.trans ht1, he2.trans he1, hi2.trans hi1⟩

theorem ecs_sync_go_buffers (lanes : List Nat) (ecs : Ecs)
    (hip : ecs.in_progress = false) :
    (lanes.foldl ecs_sync_lane ecs).cmd_buffers =
      lanes.foldl (fun bs t => bs.set t []) ecs.cmd_buffers := by
  induction lanes generalizing ecs with
  | nil => rfl
  | cons t ts ih =>
      simp only [List.foldl_cons]
      have hi1 := (ecs_sync_lane_frame ecs t).2.2.2
      rw [ih (ecs_sync_lane ecs t) (hi1.trans hip),
        ecs_sync_lane_buffers ecs t hip]

theorem set_empty_fold_length (lanes : List Nat) (bs : List (List ecs_cmd)) :
    (lanes.foldl (fun bs t => bs.set t []) bs).length = bs.length := by
  induction lanes generalizing bs with
  | nil => rfl
  | cons t ts ih =>
      simp only [List.foldl_cons]
      rw [ih (bs.set t []), List.length_set]

theorem set_empty_fold_getD (lanes : List Nat) (bs : List (List ecs_cmd))
    (j : Nat) :
    (lanes.foldl (fun bs t => bs.set t []) bs).getD j [] =
      if j ∈ lanes then [] else bs.getD j [] := by
  induction lanes generalizing bs with
  | nil => simp
  | cons t ts ih =>
      simp only [List.foldl_cons]
      rw [ih (bs.set t [])]
      by_cases hts : j ∈ ts
      · rw [if_pos hts, if_pos (List.mem_cons_of_mem t hts)]
      · rw [if_neg hts]
        by_cases hjt : j = t
        · subst hjt
          rw [if_pos (List.mem_cons_self j ts)]
          by_cases hlt : j < bs.length
          · exact getD_set_self bs j [] [] hlt
          · exact getD_of_length_le _ j []
              (by rw [List.length_set]; exact Nat.le_of_not_lt hlt)
        · rw [getD_set_ne bs t j [] [] (fun h => hjt h.symm),
            if_neg (by simp [List.mem_cons, hjt, hts])]

theorem ecs_sync_frame (ecs : Ecs) :
    EcsFrame ecs (ecs_sync ecs) ∧
    (ecs_sync ecs).trace = ecs.trace ∧
    (ecs_sync ecs).enq_trace = ecs.enq_trace ∧
    (ecs_sync ecs).in_progress = ecs.in_progress :=
  ecs_sync_go_frame (List.range ecs.task_count) ecs

theorem ecs_sync_buffers (ecs : Ecs) (hip : ecs.in_progress = false)
    (hlen : ecs.cmd_buffers.length = ecs.task_count) :
    (ecs_sync ecs).cmd_buffers = List.replicate ecs.task_count [] := by
  show ((List.range ecs.task_count).foldl ecs_sync_lane ecs).cmd_buffers = _
  rw [ecs_sync_go_buffers _ ecs hip]
  have hlen2 : ((List.range ecs.task_count).foldl
      (fun bs t => bs.set t []) ecs.cmd_buffers).length = ecs.task_count := by
    rw [set_empty_fold_length, hlen]
  refine List.eq_replicate_iff.2 ⟨hlen2, ?_⟩
  intro b hb
  obtain ⟨i, hi, hbi⟩ := List.mem_iff_getElem.1 hb
  have hgd : ((List.range ecs.task_count).foldl
      (fun bs t => bs.set t []) ecs.cmd_buffers).getD i [] = b := by
    rw [List.getD_eq_getElem?_getD, List.getElem?_eq_getElem hi, hbi]
    rfl
  rw [set_empty_fold_getD, if_pos (List.mem_range.2 (by omega))] at hgd
  exact hgd.symm

theorem ecs_cmd_enqueue_fold_frame (cmds : List ecs_cmd) (ecs : Ecs) (t : Nat) :
    EcsFrame ecs (cmds.foldl (fun acc c => ecs_cmd_enqueue acc t c) ecs) ∧
    (cmds.foldl (fun acc c => ecs_cmd_enqueue acc t c) ecs).trace = ecs.trace ∧
    (cmds.foldl (fun acc c => ecs_cmd_enqueue acc t c) ecs).enq_trace =
      ecs.enq_trace ∧
    (cmds.foldl (fun acc c => ecs_cmd_enqueue acc t c) ecs).in_progress =
      ecs.in_progress := by
  induction cmds generalizing ecs with
  | nil => exact ⟨ecsFrame_refl ecs, rfl, rfl, rfl⟩
  | cons c cs ih =>
      simp only [List.foldl_cons]
      obtain ⟨hf1, ht1, he1, hi1⟩ := ecs_cmd_enqueue_frame ecs t c
      obtain ⟨hf2, ht2, he2, hi2⟩ := ih (ecs_cmd_enqueue ecs t c)
      exact ⟨ecsFrame_trans hf1 hf2, ht2.trans ht1, he2.trans he1, hi2.trans hi1⟩

theorem ecs_run_system_task_spec (ecs : Ecs) (i t : Nat) :
    EcsFrame ecs (ecs_run_system_task ecs i t).1 ∧
    (ecs_run_system_task ecs i t).1.in_progress = ecs.in_progress ∧
    (ecs_run_system_task ecs i t).1.enq_trace = ecs.enq_trace ∧
    (∃ new, (ecs_run_system_task ecs i t).1.trace = ecs.trace ++ new ∧
      ((new = [] ∧ (ecs_run_system_task ecs i t).2 = 0) ∨
       (∃ v, new = [{ sys_index := i, task_index := t, view := v,
                      status := (ecs_run_system_task ecs i t).2 }]))) := by
  unfold ecs_run_system_task
  cases hv : ecs_task_view ecs i t with
  | none =>
      exact ⟨ecsFrame_refl ecs, rfl, rfl, [], (List.append_nil _).symm,
        Or.inl ⟨rfl, rfl⟩⟩
  | some matched =>
      simp only []
      obtain ⟨hf, ht, he, hi⟩ := ecs_cmd_enqueue_fold_frame
        ((ecs.systems.getD i default).fn matched).2 ecs t
      refine ⟨⟨hf.1, hf.2.1, hf.2.2.1, hf.2.2.2.1, hf.2.2.2.2⟩, hi, he,
        [{ sys_index := i, task_index := t, view := matched,
           status := ((ecs.systems.getD i default).fn matched).1 }],
        ?_, Or.inr ⟨matched, rfl⟩⟩
      rw [ht]

theorem ecs_enqueue_tasks_spec (ts : List Nat) (ecs : Ecs) (i : Nat) :
    EcsFrame ecs (ecs_enqueue_tasks ecs i ts).1 ∧
    (ecs_enqueue_tasks ecs i ts).1.in_progress = ecs.in_progress ∧
    ∃ new, (ecs_enqueue_tasks ecs i ts).1.trace = ecs.trace ++ new ∧
      ∀ c ∈ new, c.sys_index = i := by
  induction ts generalizing ecs with
  | nil =>
      exact ⟨ecsFrame_refl ecs, rfl, [], (List.append_nil _).symm, by simp⟩
  | cons t ts2 ih =>
      simp only [ecs_enqueue_tasks]
      by_cases hst : (ecs.enqueue_cb.getD (fun _ _ => 0)) i t ≠ 0
      · rw [if_pos hst]
        exact ⟨⟨rfl, rfl, rfl, rfl, rfl⟩, rfl, [], (List.append_nil _).symm,
          by simp⟩
      · rw [if_neg hst]
        set ecs1 : Ecs := { ecs with enq_trace := ecs.enq_trace ++
          [(ecs.enqueue_cb.getD (fun _ _ => 0)) i t] } with hecs1
        obtain ⟨hf1, hi1, he1, new1, ht1, hcase1⟩ :=
          ecs_run_system_task_spec ecs1 i t
        obtain ⟨hf2, hi2, new2, ht2, hall2⟩ :=
          ih (ecs_run_system_task ecs1 i t).1
        have hfe : EcsFrame ecs ecs1 := ⟨rfl, rfl, rfl, rfl, rfl⟩
        have hie : ecs1.in_progress = ecs.in_progress := rfl
        have hte : ecs1.trace = ecs.trace := rfl
        refine ⟨ecsFrame_trans hfe (ecsFrame_trans hf1 hf2),
          hi2.trans (hi1.trans hie), new1 ++ new2, ?_, ?_⟩
        · rw [ht2, ht1, hte, List.append_assoc]
        · intro c hc
          rcases List.mem_append.1 hc with h | h
          · rcases hcase1 with ⟨hnil, -⟩ | ⟨v, hv⟩
            · rw [hnil] at h
              exact absurd h (by simp)
            · rw [hv] at h
              rw [List.mem_singleton.1 h]
          · exact hall2 c h

theorem ecs_progress_phase_trace (idxs : List Nat) (ecs : Ecs) (m : Nat) :
    EcsFrame ecs (ecs_progress_phase ecs m idxs).1 ∧
    (ecs_progress_phase ecs m idxs).1.in_progress = ecs.in_progress ∧
    ∃ new, (ecs_progress_phase ecs m idxs).1.trace = ecs.trace ++ new ∧
      ∀ c ∈ new, (ecs.systems.getD c.sys_index default).enabled = true ∧
        ecs_group_matches (ecs.systems.getD c.sys_index default) m = true := by
  induction idxs generalizing ecs with
  | nil => exact ⟨ecsFrame_refl ecs, rfl, [], (List.append_nil _).symm, by simp⟩
  | cons sy rest ih =>
      simp only [ecs_progress_phase]
      cases hen : (ecs.systems.getD sy default).enabled with
      | false =>
          rw [Bool.not_false, if_pos rfl]
          exact ih ecs
      | true =>
          rw [Bool.not_true, if_neg (by simp)]
          cases hgm : ecs_group_matches (ecs.systems.getD sy default) m with
          | false =>
              rw [Bool.not_false, if_pos rfl]
              exact ih ecs
          | true =>
              rw [Bool.not_true, if_neg (by simp)]
              have hr : ∀ r : Ecs × Int,
                  (r = ecs_run_system_task ecs sy 0 ∨
                   r = ecs_enqueue_tasks ecs sy (List.range ecs.task_count)) →
                  EcsFrame ecs r.1 ∧ r.1.in_progress = ecs.in_progress ∧
                  ∃ new, r.1.trace = ecs.trace ++ new ∧
                    ∀ c ∈ new, c.sys_index = sy := by
                intro r hcases
                rcases hcases with hre | hre
                · subst hre
                  obtain ⟨hf1, hi1, he1, new1, ht1, hc1⟩ :=
                    ecs_run_system_task_spec ecs sy 0
                  refine ⟨hf1, hi1, new1, ht1, ?_⟩
                  intro c hc
                  rcases hc1 with ⟨hnil, -⟩ | ⟨v, hv⟩
                  · rw [hnil] at hc
                    exact absurd hc (by simp)
                  · rw [hv] at hc
                    rw [List.mem_singleton.1 hc]
                · subst hre
                  obtain ⟨hf1, hi1, new1, ht1, hc1⟩ :=
                    ecs_enqueue_tasks_spec (List.range ecs.task_count) ecs sy
                  exact ⟨hf1, hi1, new1, ht1, hc1⟩
              cases hmtb : ecs_mt ecs with
              | true =>
                  rw [Bool.not_true,
                    if_neg ((by simp : ¬(false = true)))]
                  obtain ⟨hf1, hi1, new1, ht1, hc1⟩ :=
                    hr (ecs_enqueue_tasks ecs sy (List.range ecs.task_count))
                      (Or.inr rfl)
                  by_cases hret :
                      (ecs_enqueue_tasks ecs sy (List.range ecs.task_count)).2 ≠ 0
                  · rw [if_pos hret]
                    refine ⟨hf1, hi1, new1, ht1, ?_⟩
                    intro c hc
                    rw [hc1 c hc]
                    exact ⟨hen, hgm⟩
                  · rw [if_neg hret]
                    obtain ⟨hf2, hi2, new2, ht2, hall2⟩ :=
                      ih (ecs_enqueue_tasks ecs sy (List.range ecs.task_count)).1
                    rw [hf1.1] at hall2
                    refine ⟨ecsFrame_trans hf1 hf2, hi2.trans hi1,
                      new1 ++ new2, ?_, ?_⟩
                    · rw [ht2, ht1, List.append_assoc]
                    · intro c hc
                      rcases List.mem_append.1 hc with h | h
                      · rw [hc1 c h]
                        exact ⟨hen, hgm⟩
                      · exact hall2 c h
              | false =>
                  rw [Bool.not_false,
                    if_pos ((rfl : (true : Bool) = true))]
                  obtain ⟨hf1, hi1, new1, ht1, hc1⟩ :=
                    hr (ecs_run_system_task ecs sy 0) (Or.inl rfl)
                  by_cases hret : (ecs_run_system_task ecs sy 0).2 ≠ 0
                  · rw [if_pos hret]
                    refine ⟨hf1, hi1, new1, ht1, ?_⟩
                    intro c hc
                    rw [hc1 c hc]
                    exact ⟨hen, hgm⟩
                  · rw [if_neg hret]
                    obtain ⟨hf2, hi2, new2, ht2, hall2⟩ :=
                      ih (ecs_run_system_task ecs sy 0).1
                    rw [hf1.1] at hall2
                    refine ⟨ecsFrame_trans hf1 hf2, hi2.trans hi1,
                      new1 ++ new2, ?_, ?_⟩
                    · rw [ht2, ht1, List.append_assoc]
                    · intro c hc
                      rcases List.mem_append.1 hc with h | h
                      · rw [hc1 c h]
                        exact ⟨hen, hgm⟩
                      · exact hall2 c h

theorem ecs_progress_loop_trace (phs : List ecs_phase) (ecs : Ecs) (m : Nat) :
    EcsFrame ecs (ecs_progress_loop ecs m phs).1 ∧
    ∃ new, (ecs_progress_loop ecs m phs).1.trace = ecs.trace ++ new ∧
      ∀ c ∈ new, (ecs.systems.getD c.sys_index default).enabled = true ∧
        ecs_group_matches (ecs.systems.getD c.sys_index default) m = true := by
  induction phs generalizing ecs with
  | nil => exact ⟨ecsFrame_refl ecs, [], (List.append_nil _).symm, by simp⟩
  | cons ph rest ih =>
      simp only [ecs_progress_loop]
      obtain ⟨hf1, hi1, new1, ht1, hall1⟩ :=
        ecs_progress_phase_trace ph.sys_idx ecs m
      by_cases hret : (ecs_progress_phase ecs m ph.sys_idx).2 ≠ 0
      · rw [if_pos hret]
        exact ⟨hf1, new1, ht1, hall1⟩
      · rw [if_neg hret]
        obtain ⟨hfs, hts, hes, his⟩ := ecs_sync_frame
          { (ecs_progress_phase ecs m ph.sys_idx).1 with in_progress := false }
        obtain ⟨hf2, new2, ht2, hall2⟩ := ih
          { ecs_sync { (ecs_progress_phase ecs m ph.sys_idx).1 with
              in_progress := false } with in_progress := true }
        have hfa : EcsFrame (ecs_progress_phase ecs m ph.sys_idx).1
            { (ecs_progress_phase ecs m ph.sys_idx).1 with
              in_progress := false } := ⟨rfl, rfl, rfl, rfl, rfl⟩
        have hfb : EcsFrame
            (ecs_sync { (ecs_progress_phase ecs m ph.sys_idx).1 with
              in_progress := false })
            { ecs_sync { (ecs_progress_phase ecs m ph.sys_idx).1 with
                in_progress := false } with in_progress := true } :=
          ⟨rfl, rfl, rfl, rfl, rfl⟩
        have hsys : ({ ecs_sync { (ecs_progress_phase ecs m ph.sys_idx).1 with
            in_progress := false } with in_progress := true } : Ecs).systems =
            ecs.systems := hfs.1.trans hf1.1
        rw [hsys] at hall2
        refine ⟨ecsFrame_trans hf1 (ecsFrame_trans hfa
          (ecsFrame_trans hfs (ecsFrame_trans hfb hf2))), new1 ++ new2, ?_, ?_⟩
        · rw [ht2]
          have hx : ({ ecs_sync { (ecs_progress_phase ecs m ph.sys_idx).1 with
              in_progress := false } with in_progress := true } : Ecs).trace =
              (ecs_progress_phase ecs m ph.sys_idx).1.trace := hts
          rw [hx, ht1, List.append_assoc]
        · intro c hc
          rcases List.mem_append.1 hc with h | h
          · exact hall1 c h
          · exact hall2 c h

/-- C7 (amended): every system-function invocation recorded during
`ecs_progress(group_mask)` is of a system that is enabled and passes the
group filter (`group_mask == 0 ? s.phase == 0 : s.phase & group_mask`);
the converse of the claimed "iff" fails — an enabled, group-matching
system whose view is empty is never invoked. -/
theorem C7_group_filter (ecs : Ecs) (m : Nat) :
    ∃ new, (ecs_progress ecs m).1.trace = ecs.trace ++ new ∧
      ∀ c ∈ new, (ecs.systems.getD c.sys_index default).enabled = true ∧
        ecs_group_matches (ecs.systems.getD c.sys_index default) m = true := by
  unfold ecs_progress
  obtain ⟨hf1, new1, ht1, hall1⟩ := ecs_progress_loop_trace
    (ecs_build_phases ({ ecs with in_progress := true } : Ecs).systems)
    { ecs with in_progress := true } m
  obtain ⟨hfs, hts, hes, his⟩ := ecs_sync_frame
    { (ecs_progress_loop { ecs with in_progress := true } m
        (ecs_build_phases ({ ecs with in_progress := true } : Ecs).systems)).1
      with in_progress := false }
  have hsys0 : ({ ecs with in_progress := true } : Ecs).systems =
      ecs.systems := rfl
  rw [hsys0] at hall1
  refine ⟨new1, ?_, hall1⟩
  have hx : (ecs_sync
      { (ecs_progress_loop { ecs with in_progress := true } m
          (ecs_build_phases ({ ecs with in_progress := true } : Ecs).systems)).1
        with in_progress := false }).trace =
      (ecs_progress_loop { ecs with in_progress := true } m
        (ecs_build_phases ({ ecs with in_progress := true } : Ecs).systems)).1.trace :=
    hts
  show (ecs_sync _).trace = _
  rw [hx, ht1]

/-- Concrete state: one enabled phase-0 system requiring component 0, whose
pool is empty. -/
def ecsC7 : Ecs :=
  { pools := [{ set := { sparse := [], dense := [] },
                data := [], element_size := 1 }],
    systems := [{ all_of := {0}, none_of := ∅, read := {0}, write := ∅,
                  phase := 0, fn := fun _ => (0, []), enabled := true }],
    enqueue_cb := none, wait_cb := false, task_count := 1,
    in_progress := false, cmd_buffers := [[]], free_list := [],
    next_entity := 0, trace := [], enq_trace := [] }

/-- C7 counterexample: an enabled system that passes the group filter is
nevertheless never invoked during `ecs_progress` when no entity matches
(empty pool), refuting the claim's "invoked iff enabled and
group-matching". -/
theorem C7_eligible_not_invoked_cex :
    (ecsC7.systems.getD 0 default).enabled = true ∧
    ecs_group_matches (ecsC7.systems.getD 0 default) 0 = true ∧
    (ecs_progress ecsC7 0).1.trace = [] := by
  refine ⟨by decide, by decide, by decide⟩

theorem ecs_progress_phase_status (idxs : List Nat) (ecs : Ecs) (m : Nat)
    (hmt : ecs_mt ecs = false) :
    ∃ new, (ecs_progress_phase ecs m idxs).1.trace = ecs.trace ++ new ∧
      (((ecs_progress_phase ecs m idxs).2 = 0 ∧ ∀ c ∈ new, c.status = 0) ∨
       (∃ pre c, new = pre ++ [c] ∧ (∀ x ∈ pre, x.status = 0) ∧
         c.status = (ecs_progress_phase ecs m idxs).2 ∧
         (ecs_progress_phase ecs m idxs).2 ≠ 0)) := by
  induction idxs generalizing ecs with
  | nil => exact ⟨[], (List.append_nil _).symm, Or.inl ⟨rfl, by simp⟩⟩
  | cons sy rest ih =>
      simp only [ecs_progress_phase]
      cases hen : (ecs.systems.getD sy default).enabled with
      | false =>
          rw [Bool.not_false, if_pos rfl]
          exact ih ecs hmt
      | true =>
          rw [Bool.not_true, if_neg (by simp)]
          cases hgm : ecs_group_matches (ecs.systems.getD sy default) m with
          | false =>
              rw [Bool.not_false, if_pos rfl]
              exact ih ecs hmt
          | true =>
              rw [Bool.not_true, if_neg (by simp)]
              rw [hmt, Bool.not_false,
                if_pos ((rfl : (true : Bool) = true))]
              obtain ⟨hf1, hi1, he1, new1, ht1, hc1⟩ :=
                ecs_run_system_task_spec ecs sy 0
              by_cases hret : (ecs_run_system_task ecs sy 0).2 ≠ 0
              · rw [if_pos hret]
                rcases hc1 with ⟨-, h0⟩ | ⟨v, hv⟩
                · exact absurd h0 hret
                · refine ⟨new1, ht1, Or.inr
                    ⟨[], { sys_index := sy, task_index := 0, view := v,
                           status := (ecs_run_system_task ecs sy 0).2 },
                     by rw [hv]; rfl, by simp, rfl, hret⟩⟩
              · rw [if_neg hret]
                have h0 : (ecs_run_system_task ecs sy 0).2 = 0 := not_not.1 hret
                have hmt2 : ecs_mt (ecs_run_system_task ecs sy 0).1 = false :=
                  (ecs_mt_frame hf1).trans hmt
                obtain ⟨new2, ht2, hcase2⟩ :=
                  ih (ecs_run_system_task ecs sy 0).1 hmt2
                have hnew1z : ∀ c ∈ new1, c.status = 0 := by
                  intro c hc
                  rcases hc1 with ⟨hnil, -⟩ | ⟨v, hv⟩
                  · rw [hnil] at hc
                    exact absurd hc (by simp)
                  · rw [hv] at hc
                    rw [List.mem_singleton.1 hc]
                    exact h0
                refine ⟨new1 ++ new2, ?_, ?_⟩
                · rw [ht2, ht1, List.append_assoc]
                · rcases hcase2 with ⟨hz, hall⟩ | ⟨pre, c, hnew2, hpre, hcs, hne⟩
                  · refine Or.inl ⟨hz, ?_⟩
                    intro c hc
                    rcases List.mem_append.1 hc with h | h
                    · exact hnew1z c h
                    · exact hall c h
                  · refine Or.inr ⟨new1 ++ pre, c, ?_, ?_, hcs, hne⟩
                    · rw [hnew2, List.append_assoc]
                    · intro x hx
                      rcases List.mem_append.1 hx with h | h
                      · exact hnew1z x h
                      · exact hpre x h

theorem ecs_progress_loop_status (phs : List ecs_phase) (ecs : Ecs) (m : Nat)
    (hmt : ecs_mt ecs = false) :
    ∃ new, (ecs_progress_loop ecs m phs).1.trace = ecs.trace ++ new ∧
      (((ecs_progress_loop ecs m phs).2 = 0 ∧ ∀ c ∈ new, c.status = 0) ∨
       (∃ pre c, new = pre ++ [c] ∧ (∀ x ∈ pre, x.status = 0) ∧
         c.status = (ecs_progress_loop ecs m phs).2 ∧
         (ecs_progress_loop ecs m phs).2 ≠ 0)) := by
  induction phs generalizing ecs with
  | nil => exact ⟨[], (List.append_nil _).symm, Or.inl ⟨rfl, by simp⟩⟩
  | cons ph rest ih =>
      simp only [ecs_progress_loop]
      obtain ⟨hf1, hi1, new1t, ht1t, hall1t⟩ :=
        ecs_progress_phase_trace ph.sys_idx ecs m
      obtain ⟨new1, ht1, hc1⟩ := ecs_progress_phase_status ph.sys_idx ecs m hmt
      by_cases hret : (ecs_progress_phase ecs m ph.sys_idx).2 ≠ 0
      · rw [if_pos hret]
        exact ⟨new1, ht1, hc1⟩
      · rw [if_neg hret]
        have h0 : (ecs_progress_phase ecs m ph.sys_idx).2 = 0 := not_not.1 hret
        have hnew1z : ∀ c ∈ new1, c.status = 0 := by
          rcases hc1 with ⟨-, hall⟩ | ⟨-, -, -, -, -, hne⟩
          · exact hall
          · exact absurd h0 hne
        obtain ⟨hfs, hts, hes, his⟩ := ecs_sync_frame
          { (ecs_progress_phase ecs m ph.sys_idx).1 with in_progress := false }
        have hmt2 : ecs_mt ({ ecs_sync
            { (ecs_progress_phase ecs m ph.sys_idx).1 with
              in_progress := false } with in_progress := true } : Ecs) =
            false :=
          ((ecs_mt_frame hfs).trans ((ecs_mt_frame hf1).trans hmt))
        obtain ⟨new2, ht2, hcase2⟩ := ih
          { ecs_sync { (ecs_progress_phase ecs m ph.sys_idx).1 with
              in_progress := false } with in_progress := true } hmt2
        have hx : ({ ecs_sync { (ecs_progress_phase ecs m ph.sys_idx).1 with
            in_progress := false } with in_progress := true } : Ecs).trace =
            (ecs_progress_phase ecs m ph.sys_idx).1.trace := hts
        refine ⟨new1 ++ new2, ?_, ?_⟩
        · rw [ht2, hx, ht1, List.append_assoc]
        · rcases hcase2 with ⟨hz, hall⟩ | ⟨pre, c, hnew2, hpre, hcs, hne⟩
          · refine Or.inl ⟨hz, ?_⟩
            intro c hc
            rcases List.mem_append.1 hc with h | h
            · exact hnew1z c h
            · exact hall c h
          · refine Or.inr ⟨new1 ++ pre, c, ?_, ?_, hcs, hne⟩
            · rw [hnew2, List.append_assoc]
            · intro x hx2
              rcases List.mem_append.1 hx2 with h | h
              · exact hnew1z x h
              · exact hpre x h

/-- C4 (amended, single-threaded dispatch): a non-zero system-function
status makes `ecs_progress` stop dispatching the remaining systems and
stages and return that first non-zero status; when every invocation
returns zero, progress returns zero; in both cases the final drain runs
and leaves every lane's command buffer empty.  (In multi-threaded
dispatch the claim fails for system statuses: the worker loop discards
them and only enqueue statuses propagate.) -/
theorem C4_status_propagation_and_drain (ecs : Ecs) (m : Nat)
    (hmt : ecs_mt ecs = false)
    (hlen : ecs.cmd_buffers.length = ecs.task_count) :
    (ecs_progress ecs m).1.cmd_buffers = List.replicate ecs.task_count [] ∧
    ∃ new, (ecs_progress ecs m).1.trace = ecs.trace ++ new ∧
      (((ecs_progress ecs m).2 = 0 ∧ ∀ c ∈ new, c.status = 0) ∨
       (∃ pre c, new = pre ++ [c] ∧ (∀ x ∈ pre, x.status = 0) ∧
         c.status = (ecs_progress ecs m).2 ∧ (ecs_progress ecs m).2 ≠ 0)) := by
  unfold ecs_progress
  have hmt1 : ecs_mt ({ ecs with in_progress := true } : Ecs) = false := hmt
  obtain ⟨hf1, new1t, ht1t, hall1t⟩ := ecs_progress_loop_trace
    (ecs_build_phases ({ ecs with in_progress := true } : Ecs).systems)
    { ecs with in_progress := true } m
  obtain ⟨new1, ht1, hc1⟩ := ecs_progress_loop_status
    (ecs_build_phases ({ ecs with in_progress := true } : Ecs).systems)
    { ecs with in_progress := true } m hmt1
  obtain ⟨hfs, hts, hes, his⟩ := ecs_sync_frame
    { (ecs_progress_loop { ecs with in_progress := true } m
        (ecs_build_phases ({ ecs with in_progress := true } : Ecs).systems)).1
      with in_progress := false }
  constructor
  · have hlen2 : ({ (ecs_progress_loop { ecs with in_progress := true } m
        (ecs_build_phases
          ({ ecs with in_progress := true } : Ecs).systems)).1 with
        in_progress := false } : Ecs).cmd_buffers.length =
        ({ (ecs_progress_loop { ecs with in_progress := true } m
          (ecs_build_phases
            ({ ecs with in_progress := true } : Ecs).systems)).1 with
          in_progress := false } : Ecs).task_count := by
      show (ecs_progress_loop { ecs with in_progress := true } m
          (ecs_build_phases
            ({ ecs with in_progress := true } : Ecs).systems)).1.cmd_buffers.length =
        (ecs_progress_loop { ecs with in_progress := true } m
          (ecs_build_phases
            ({ ecs with in_progress := true } : Ecs).systems)).1.task_count
      rw [hf1.2.2.2.2, hf1.2.2.2.1]
      exact hlen
    have hb := ecs_sync_buffers
      { (ecs_progress_loop { ecs with in_progress := true } m
          (ecs_build_phases ({ ecs with in_progress := true } : Ecs).systems)).1
        with in_progress := false } rfl hlen2
    show (ecs_sync _).cmd_buffers = _
    rw [hb]
    show List.replicate (ecs_progress_loop { ecs with in_progress := true } m
        (ecs_build_phases
          ({ ecs with in_progress := true } : Ecs).systems)).1.task_count [] = _
    rw [hf1.2.2.2.1]
  · refine ⟨new1, ?_, ?_⟩
    · have hx : (ecs_sync
          { (ecs_progress_loop { ecs with in_progress := true } m
              (ecs_build_phases
                ({ ecs with in_progress := true } : Ecs).systems)).1
            with in_progress := false }).trace =
          (ecs_progress_loop { ecs with in_progress := true } m
            (ecs_build_phases
              ({ ecs with in_progress := true } : Ecs).systems)).1.trace := hts
      show (ecs_sync _).trace = _
      rw [hx, ht1]
    · exact hc1

/-- Concrete single-threaded state: one pool holding entity 1 and one
matching system whose function reports status 7. -/
def ecsC4 : Ecs :=
  { pools := [{ set := { sparse := [0, 1], dense := [1] },
                data := [[5]], element_size := 1 }],
    systems := [{ all_of := {0}, none_of := ∅, read := {0}, write := ∅,
                  phase := 0, fn := fun _ => (7, []), enabled := true }],
    enqueue_cb := none, wait_cb := false, task_count := 1,
    in_progress := false, cmd_buffers := [[]], free_list := [],
    next_entity := 2, trace := [], enq_trace := [] }

theorem C4_status_propagation_and_drain_witness :
    ecs_mt ecsC4 = false ∧ ecsC4.cmd_buffers.length = ecsC4.task_count ∧
    ((ecs_progress ecsC4 0).1.cmd_buffers =
        List.replicate ecsC4.task_count [] ∧
     ∃ new, (ecs_progress ecsC4 0).1.trace = ecsC4.trace ++ new ∧
       (((ecs_progress ecsC4 0).2 = 0 ∧ ∀ c ∈ new, c.status = 0) ∨
        (∃ pre c, new = pre ++ [c] ∧ (∀ x ∈ pre, x.status = 0) ∧
          c.status = (ecs_progress ecsC4 0).2 ∧
          (ecs_progress ecsC4 0).2 ≠ 0))) :=
  ⟨by decide, rfl, C4_status_propagation_and_drain ecsC4 0 (by decide) rfl⟩

/-- Concrete multi-threaded state: enqueue and wait callbacks installed,
two lanes, one matching system whose function reports status 7. -/
def ecsC4mt : Ecs :=
  { pools := [{ set := { sparse := [0, 1], dense := [1] },
                data := [[5]], element_size := 1 }],
    systems := [{ all_of := {0}, none_of := ∅, read := {0}, write := ∅,
                  phase := 0, fn := fun _ => (7, []), enabled := true }],
    enqueue_cb := some (fun _ _ => 0), wait_cb := true, task_count := 2,
    in_progress := false, cmd_buffers := [[], []], free_list := [],
    next_entity := 2, trace := [], enq_trace := [] }

/-- C4 counterexample: in multi-threaded dispatch a system function
returning 7 does not stop progress and its status is not returned —
`ecs_progress` returns 0 although the recorded invocation carried
status 7 (the worker loop discards `job.fn`'s result). -/
theorem C4_mt_discards_status_cex :
    ecs_mt ecsC4mt = true ∧
    (ecs_progress ecsC4mt 0).2 = 0 ∧
    (ecs_progress ecsC4mt 0).1.trace.map (fun c => c.status) = [7] := by
  refine ⟨by decide, by decide, by decide⟩

/- --------------------------- MPMC thread pool ----------------------------- -/

/-- One ring slot of `tpool_queue_t`: its ticket counter and the job bytes
last stored there (`none` before any store; jobs are opaque tags). -/
structure tpool_slot where
  turn : Nat
  job : Option Nat
  deriving Repr, DecidableEq

instance : Inhabited tpool_slot := ⟨⟨0, none⟩⟩

/-- `tpool_queue_t`: head and tail tickets, capacity, and the slot array
(`queue_init` zeroes every turn).  The sequential model resolves each
atomic loop in one step: with no interference the CAS succeeds on the
first try, and on a ticket mismatch the re-read of `head` (resp. `tail`)
equals the first read, so the C loop returns false ("appears full" /
"appears empty"). -/
structure tpool_queue where
  head : Nat
  tail : Nat
  capacity : Nat
  slots : List tpool_slot
  deriving Repr, DecidableEq

/-- `queue_init`'s slot-array shape: a positive capacity (0 is replaced by
the default 1024) and one slot per capacity entry. -/
def tpool_queue_wf (q : tpool_queue) : Prop :=
  0 < q.capacity ∧ q.slots.length = q.capacity

instance (q : tpool_queue) : Decidable (tpool_queue_wf q) :=
  instDecidableAnd

/-- `try_enqueue`: the slot at `head % capacity` is writable iff its turn
equals the even producer ticket `(head / capacity) * 2`; claiming stores
the item, advances `head`, and stores `turn + 1`. -/
def try_enqueue (q : tpool_queue) (item : Nat) : tpool_queue × Bool :=
  let idx := q.head % q.capacity
  let s := q.slots.getD idx default
  let want := (q.head / q.capacity) * 2
  if s.turn = want then
    ({ q with head := q.head + 1,
              slots := q.slots.set idx { turn := want + 1, job := some item } },
     true)
  else (q, false)

/-- `try_dequeue`: the slot at `tail % capacity` is readable iff its turn
equals the odd consumer ticket `(tail / capacity) * 2 + 1`; claiming
copies the item out, advances `tail`, and stores `turn + 1`. -/
def try_dequeue (q : tpool_queue) : tpool_queue × Bool × Option Nat :=
  let idx := q.tail % q.capacity
  let s := q.slots.getD idx default
  let want := (q.tail / q.capacity) * 2 + 1
  if s.turn = want then
    ({ q with tail := q.tail + 1,
              slots := q.slots.set idx { s with turn := want + 1 } },
     true, s.job)
  else (q, false, none)

/-- A queue operation, for stating properties over arbitrary sequences. -/
inductive tpool_q_op where
  | enq (item : Nat)
  | deq
  deriving Repr, DecidableEq

/-- The state part of one `try_enqueue` / `try_dequeue` step. -/
def tpool_q_step (q : tpool_queue) (op : tpool_q_op) : tpool_queue :=
  match op with
  | tpool_q_op.enq item => (try_enqueue q item).1
  | tpool_q_op.deq => (try_dequeue q).1

/-- A sequence of queue steps. -/
def tpool_q_run (q : tpool_queue) (ops : List tpool_q_op) : tpool_queue :=
  ops.foldl tpool_q_step q

theorem tpool_q_step_turn_mono (q : tpool_queue) (op : tpool_q_op) (i : Nat) :
    (q.slots.getD i default).turn ≤
      ((tpool_q_step q op).slots.getD i default).turn := by
  cases op with
  | enq item =>
      show (q.slots.getD i default).turn ≤
        ((try_enqueue q item).1.slots.getD i default).turn
      unfold try_enqueue
      by_cases hc : (q.slots.getD (q.head % q.capacity) default).turn =
          (q.head / q.capacity) * 2
      · rw [if_pos hc]
        by_cases hi : q.head % q.capacity = i
        · subst hi
          by_cases hlt : q.head % q.capacity < q.slots.length
          · show (q.slots.getD (q.head % q.capacity) default).turn ≤
              ((q.slots.set (q.head % q.capacity)
                { turn := (q.head / q.capacity) * 2 + 1,
                  job := some item }).getD (q.head % q.capacity) default).turn
            rw [getD_set_self _ _ _ _ hlt, hc]
            exact Nat.le_succ _
          · show (q.slots.getD (q.head % q.capacity) default).turn ≤
              ((q.slots.set (q.head % q.capacity)
                { turn := (q.head / q.capacity) * 2 + 1,
                  job := some item }).getD (q.head % q.capacity) default).turn
            rw [getD_of_length_le _ _ _ (Nat.le_of_not_lt hlt),
              getD_of_length_le _ _ _
                (by rw [List.length_set]; exact Nat.le_of_not_lt hlt)]
        · show (q.slots.getD i default).turn ≤
            ((q.slots.set (q.head % q.capacity)
              { turn := (q.head / q.capacity) * 2 + 1,
                job := some item }).getD i default).turn
          rw [getD_set_ne _ _ _ _ _ hi]
      · rw [if_neg hc]
  | deq =>
      show (q.slots.getD i default).turn ≤
        ((try_dequeue q).1.slots.getD i default).turn
      unfold try_dequeue
      by_cases hc : (q.slots.getD (q.tail % q.capacity) default).turn =
          (q.tail / q.capacity) * 2 + 1
      · rw [if_pos hc]
        by_cases hi : q.tail % q.capacity = i
        · subst hi
          by_cases hlt : q.tail % q.capacity < q.slots.length
          · show (q.slots.getD (q.tail % q.capacity) default).turn ≤
              ((q.slots.set (q.tail % q.capacity)
                { q.slots.getD (q.tail % q.capacity) default with
                  turn := (q.tail / q.capacity) * 2 + 1 + 1 }).getD
                (q.tail % q.capacity) default).turn
            rw [getD_set_self _ _ _ _ hlt, hc]
            exact Nat.le_succ _
          · show (q.slots.getD (q.tail % q.capacity) default).turn ≤
              ((q.slots.set (q.tail % q.capacity)
                { q.slots.getD (q.tail % q.capacity) default with
                  turn := (q.tail / q.capacity) * 2 + 1 + 1 }).getD
                (q.tail % q.capacity) default).turn
            rw [getD_of_length_le _ _ _ (Nat.le_of_not_lt hlt),
              getD_of_length_le _ _ _
                (by rw [List.length_set]; exact Nat.le_of_not_lt hlt)]
        · show (q.slots.getD i default).turn ≤
            ((q.slots.set (q.tail % q.capacity)
              { q.slots.getD (q.tail % q.capacity) default with
                turn := (q.tail / q.capacity) * 2 + 1 + 1 }).getD i default).turn
          rw [getD_set_ne _ _ _ _ _ hi]
      · rw [if_neg hc]

theorem tpool_q_run_turn_mono (ops : List tpool_q_op) (q : tpool_queue)
    (i : Nat) :
    (q.slots.getD i default).turn ≤
      ((tpool_q_run q ops).slots.getD i default).turn := by
  induction ops generalizing q with
  | nil => exact Nat.le_refl _
  | cons op rest ih =>
      exact Nat.le_trans (tpool_q_step_turn_mono q op i)
        (ih (tpool_q_step q op))

/-- C9: in the MPMC ring, each slot's turn counter never decreases over
any sequence of enqueue and dequeue steps; an enqueue claims the slot at
`head % capacity` exactly when its turn equals the even producer ticket
`(head / capacity) * 2` and then stores `turn + 1` (advancing `head`),
and a dequeue claims the slot at `tail % capacity` exactly when its turn
equals the odd consumer ticket `(tail / capacity) * 2 + 1` and then
stores `turn + 1` (advancing `tail`). -/
theorem C9_queue_ticket_monotonicity (q : tpool_queue) (ops : List tpool_q_op)
    (i item : Nat) (hwf : tpool_queue_wf q) :
    ((q.slots.getD i default).turn ≤
      ((tpool_q_run q ops).slots.getD i default).turn) ∧
    ((try_enqueue q item).2 = true ↔
      (q.slots.getD (q.head % q.capacity) default).turn =
        (q.head / q.capacity) * 2) ∧
    ((try_enqueue q item).2 = true →
      ((try_enqueue q item).1.slots.getD (q.head % q.capacity) default).turn =
        (q.head / q.capacity) * 2 + 1 ∧
      (try_enqueue q item).1.head = q.head + 1) ∧
    ((try_dequeue q).2.1 = true ↔
      (q.slots.getD (q.tail % q.capacity) default).turn =
        (q.tail / q.capacity) * 2 + 1) ∧
    ((try_dequeue q).2.1 = true →
      ((try_dequeue q).1.slots.getD (q.tail % q.capacity) default).turn =
        ((q.tail / q.capacity) * 2 + 1) + 1 ∧
      (try_dequeue q).1.tail = q.tail + 1) := by
  have hlt : q.head % q.capacity < q.slots.length := by
    rw [hwf.2]
    exact Nat.mod_lt _ hwf.1
  have hlt2 : q.tail % q.capacity < q.slots.length := by
    rw [hwf.2]
    exact Nat.mod_lt _ hwf.1
  refine ⟨tpool_q_run_turn_mono ops q i, ?_, ?_, ?_, ?_⟩
  · unfold try_enqueue
    by_cases hc : (q.slots.getD (q.head % q.capacity) default).turn =
        (q.head / q.capacity) * 2
    · rw [if_pos hc]
      exact ⟨fun _ => hc, fun _ => rfl⟩
    · rw [if_neg hc]
      exact ⟨fun h => absurd h (by simp), fun h => absurd h hc⟩
  · intro h
    unfold try_enqueue at h ⊢
    by_cases hc : (q.slots.getD (q.head % q.capacity) default).turn =
        (q.head / q.capacity) * 2
    · rw [if_pos hc]
      constructor
      · show ((q.slots.set (q.head % q.capacity)
            { turn := (q.head / q.capacity) * 2 + 1,
              job := some item }).getD (q.head % q.capacity) default).turn = _
        rw [getD_set_self _ _ _ _ hlt]
      · rfl
    · rw [if_neg hc] at h
      exact absurd h (by simp)
  · unfold try_dequeue
    by_cases hc : (q.slots.getD (q.tail % q.capacity) default).turn =
        (q.tail / q.capacity) * 2 + 1
    · rw [if_pos hc]
      exact ⟨fun _ => hc, fun _ => rfl⟩
    · rw [if_neg hc]
      exact ⟨fun h => absurd h (by simp), fun h => absurd h hc⟩
  · intro h
    unfold try_dequeue at h ⊢
    by_cases hc : (q.slots.getD (q.tail % q.capacity) default).turn =
        (q.tail / q.capacity) * 2 + 1
    · rw [if_pos hc]
      constructor
      · show ((q.slots.set (q.tail % q.capacity)
            { q.slots.getD (q.tail % q.capacity) default with
              turn := (q.tail / q.capacity) * 2 + 1 + 1 }).getD
            (q.tail % q.capacity) default).turn = _
        rw [getD_set_self _ _ _ _ hlt2]
      · rfl
    · rw [if_neg hc] at h
      exact absurd h (by simp)

/-- Concrete one-slot ring in its initial state. -/
def qC9 : tpool_queue :=
  { head := 0, tail := 0, capacity := 1, slots := [{ turn := 0, job := none }] }

theorem C9_queue_ticket_monotonicity_witness :
    tpool_queue_wf qC9 ∧
    (((qC9.slots.getD 0 default).turn ≤
        ((tpool_q_run qC9 [tpool_q_op.enq 5, tpool_q_op.deq]).slots.getD 0
          default).turn) ∧
     ((try_enqueue qC9 5).2 = true ↔
       (qC9.slots.getD (qC9.head % qC9.capacity) default).turn =
         (qC9.head / qC9.capacity) * 2) ∧
     ((try_enqueue qC9 5).2 = true →
       ((try_enqueue qC9 5).1.slots.getD (qC9.head % qC9.capacity)
           default).turn = (qC9.head / qC9.capacity) * 2 + 1 ∧
       (try_enqueue qC9 5).1.head = qC9.head + 1) ∧
     ((try_dequeue qC9).2.1 = true ↔
       (qC9.slots.getD (qC9.tail % qC9.capacity) default).turn =
         (qC9.tail / qC9.capacity) * 2 + 1) ∧
     ((try_dequeue qC9).2.1 = true →
       ((try_dequeue qC9).1.slots.getD (qC9.tail % qC9.capacity)
           default).turn = ((qC9.tail / qC9.capacity) * 2 + 1) + 1 ∧
       (try_dequeue qC9).1.tail = qC9.tail + 1)) :=
  ⟨by decide,
   C9_queue_ticket_monotonicity qC9 [tpool_q_op.enq 5, tpool_q_op.deq] 0 5
     (by decide)⟩

/-- `tpool_t` (the fields `tpool_submit` touches): the ring, the `queued`
and `in_flight` counters, the stop flag, and an instrumentation list of
the jobs executed inline, in order. -/
structure tpool_state where
  q : tpool_queue
  queued : Nat
  in_flight : Nat
  stop : Bool
  executed : List Nat
  deriving Repr, DecidableEq

/-- `tpool_job_done`: drop `in_flight` (the condvar broadcast has no
modelled effect). -/
def tpool_job_done (p : tpool_state) : tpool_state :=
  { p with in_flight := p.in_flight - 1 }

/-- `tpool_submit`: return silently on a null `fn` or when stopping;
otherwise reserve the completion slot (`in_flight++`), then either place
the job in the ring (`queued++`; the worker wake-up signal has no
modelled effect) or, when `try_enqueue` fails, run the job inline on the
caller and `tpool_job_done`. -/
def tpool_submit (p : tpool_state) (fn : Option Nat) : tpool_state :=
  match fn with
  | none => p
  | some f =>
      if p.stop then p
      else
        let p1 := { p with in_flight := p.in_flight + 1 }
        if (try_enqueue p1.q f).2 then
          { p1 with q := (try_enqueue p1.q f).1, queued := p1.queued + 1 }
        else
          tpool_job_done { p1 with executed := p1.executed ++ [f] }

/-- C8: `tpool_submit` returns with no state change on a null `fn` or a
set stop flag; otherwise it increments `in_flight`, and when the ring is
full it executes the job exactly once inline and drops `in_flight` back,
so the full-queue case leaves `in_flight` unchanged overall. -/
theorem C8_submit_never_blocks (p : tpool_state) (fn : Option Nat) :
    (fn = none → tpool_submit p fn = p) ∧
    (p.stop = true → tpool_submit p fn = p) ∧
    (∀ f, fn = some f → p.stop = false →
      ((try_enqueue p.q f).2 = true →
        tpool_submit p fn =
          { p with q := (try_enqueue p.q f).1, queued := p.queued + 1,
                   in_flight := p.in_flight + 1 }) ∧
      ((try_enqueue p.q f).2 = false →
        tpool_submit p fn = { p with executed := p.executed ++ [f] })) := by
  refine ⟨?_, ?_, ?_⟩
  · intro h
    subst h
    rfl
  · intro h
    cases fn with
    | none => rfl
    | some f =>
        show (if p.stop then p else _) = p
        rw [h, if_pos rfl]
  · intro f hf hstop
    subst hf
    constructor
    · intro henq
      show (if p.stop then p else _) = _
      rw [hstop, if_neg (by simp)]
      rw [if_pos henq]
    · intro henq
      show (if p.stop then p else _) = _
      rw [hstop, if_neg (by simp)]
      rw [if_neg (by rw [henq]; simp)]
      simp [tpool_job_done]

/-- Concrete pool whose one-slot ring is full (the slot's turn is odd, so
the producer ticket check fails). -/
def pC8full : tpool_state :=
  { q := { head := 1, tail := 0, capacity := 1,
           slots := [{ turn := 1, job := some 4 }] },
    queued := 1, in_flight := 3, stop := false, executed := [] }

theorem C8_submit_never_blocks_witness :
    (try_enqueue pC8full.q 9).2 = false ∧ pC8full.stop = false ∧
    tpool_submit pC8full (some 9) =
      { pC8full with executed := pC8full.executed ++ [9] } ∧
    (tpool_submit pC8full (some 9)).in_flight = pC8full.in_flight :=
  ⟨by decide, rfl,
   ((C8_submit_never_blocks pC8full (some 9)).2.2 9 rfl rfl).2 (by decide),
   by decide⟩

end Brutal
